import Mathlib

/-!
Verification of the ASDF pixel-sort engine
(`src/ASDFPixelSort/utils/pixelSort.js`, duplicated in `src/unnamed/part_000`).

The engine works on a flat RGBA byte buffer.  `convertToRGB` packs each
pixel's R,G,B bytes into one signed 32-bit integer, `sortColumn`/`sortRow`
scan every column (resp. row) for threshold-delimited runs and sort each
run's packed values ascending in place, and `convertToRGBA` unpacks the
result, copying alpha from the original buffer.

Modelling conventions used throughout this file:
* JS `Int32Array` entries are modelled as `Int`.  The pack expression
  `(r << 16) | (g << 8) | b | 0xFF000000` on bytes r,g,b has disjoint bit
  ranges, so the ORs are addition, and `0xFF000000` as a signed 32-bit
  value is `-16777216`; no further wraparound can occur, so `Int` with an
  explicit `- 16777216` is exact.
* `Uint8ClampedArray` contents are modelled as `List Nat`; reads out of
  bounds (JS `undefined`, which every `<`/`>` comparison treats as false
  and every bitwise op treats as 0) are modelled with `List.getD _ _ 0`
  at the places where the JS value actually flows into arithmetic, and
  by early termination where the JS comparison-on-undefined exits a loop
  (each such place is justified by a comment at the definition).
* JS `array.sort((a, b) => a - b)` sorts numbers ascending; on integer
  lists any ascending sort is extensionally that result (duplicate keys
  are identical values), so we use the structural `List.insertionSort`.
-/

namespace ASDF

/-- Threshold state of `class PixelSorter` (pixelSort.js lines 12-19). -/
structure PixelSorter where
  whiteValue : Int
  blackValue : Int
  brightValue : Int
  darkValue : Int
deriving Repr, DecidableEq

/-- The constructor defaults (pixelSort.js lines 15-18). -/
def defaultSorter : PixelSorter :=
  { whiteValue := -12345678, blackValue := -3456789,
    brightValue := 127, darkValue := 223 }

/-- Sorting mode: JS integers 0,1,2,3 (pixelSort.js header comment).
Other integers fall through every `switch` case and make the scan loop
spin forever; all claims restrict to modes 0-3, so only these are
modelled. -/
inductive SortMode where
  | white
  | black
  | bright
  | dark
deriving Repr, DecidableEq

/-- Packing of one pixel (pixelSort.js line 72):
`(r << 16) | (g << 8) | b | 0xFF000000` as a signed 32-bit value.
For bytes r,g,b < 256 the OR is addition on disjoint bit ranges and the
result is `r*2^16 + g*2^8 + b - 2^24` (the `0xFF000000` tag makes the
sign bit 1, hence the subtraction). -/
def pack (r g b : Nat) : Int :=
  (r : Int) * 65536 + (g : Int) * 256 + (b : Int) - 16777216

/-- `(color >> 16) & 0xFF` (pixelSort.js lines 86, 195): for a packed
value `c = m - 2^24` with `m < 2^24`, the arithmetic shift and mask give
`m / 2^16 % 2^8` (the sign-extended high bits vanish under the mask). -/
def unpackR (c : Int) : Nat := (c + 16777216).toNat / 65536 % 256

/-- `(color >> 8) & 0xFF` (pixelSort.js lines 87, 196). -/
def unpackG (c : Int) : Nat := (c + 16777216).toNat / 256 % 256

/-- `color & 0xFF` (pixelSort.js lines 88, 197). -/
def unpackB (c : Int) : Nat := (c + 16777216).toNat % 256

/-- `getBrightness` (pixelSort.js lines 194-199):
`Math.round(0.299*r + 0.587*g + 0.114*b)` on the unpacked channels.
Modelled by exact rational arithmetic, `round(x) = floor(x + 1/2)` for a
nonnegative argument; the JS binary64 evaluation agrees except possibly
on half-integer ties shifted by a sub-ulp float error, and no claim
below depends on tie behaviour. -/
def getBrightness (c : Int) : Int :=
  ((299 * unpackR c + 587 * unpackG c + 114 * unpackB c + 500) / 1000 : Nat)

/-- The `while` condition of the `getFirstNone*X/Y` scanner for each mode
(pixelSort.js lines 203, 221, 239, 257 and the Y twins at 276, 298, 320,
342): the scan skips pixels satisfying this predicate. -/
def skipPred (s : PixelSorter) : SortMode → Int → Bool
  | .white, c => c < s.whiteValue
  | .black, c => c > s.blackValue
  | .bright, c => getBrightness c < s.brightValue
  | .dark, c => getBrightness c > s.darkValue

/-- The `while` condition of the `getNext*X/Y` scanner for each mode
(pixelSort.js lines 212, 230, 248, 266 and the Y twins at 287, 309, 331,
353): the run keeps extending while this predicate holds. -/
def contPred (s : PixelSorter) : SortMode → Int → Bool
  | .white, c => c > s.whiteValue
  | .black, c => c < s.blackValue
  | .bright, c => getBrightness c > s.brightValue
  | .dark, c => getBrightness c < s.darkValue

/-!
Scanline-level model of the eight `getFirstNone*`/`getNext*` function
pairs.  The X functions read `pixels[x + y*width]` for fixed `y`, i.e.
the row viewed as a list of length `width`; the Y functions read
`pixels[x + y*width]` for fixed `x`, i.e. the column viewed as a list of
length `height` (their extra `if (y < height)` guard is redundant at
every call site, where the incoming index is below the bound).  Both
families are therefore one generic scanner over the extracted scanline.

Out-of-range reads: inside `getFirstNone*` the JS bound check
`x >= width` runs after each increment and before the next read, so no
such read occurs there.  Inside `getNext*` a single read at index
`width` (resp. `height`) can occur when the run start is the last index;
whether that read (the next scanline's first pixel, or `undefined`)
passes or fails the `while` condition, the JS function returns
`width - 1` either way, which is what the model returns at that point.
-/

/-- `getFirstNoneWhiteX` et al. (pixelSort.js lines 202-208 and twins):
starting at `x`, skip pixels with `skip` true; return the first index
where it fails, or `none` for the JS `-1` when the scan runs off the
end.  The case `x ≥ line.length` at entry is unreachable from
`sortRow`/`sortColumn` (their loop condition bounds the scan position). -/
def getFirstIdx (skip : Int → Bool) (line : List Int) (x : Nat) : Option Nat :=
  if _h : x < line.length then
    if skip (line.getD x 0) then getFirstIdx skip line (x + 1) else some x
  else none
termination_by line.length - x

/-- Loop of `getNextWhiteX` et al. (pixelSort.js lines 210-217 and
twins): `i` is the index about to be tested; while `cont` holds advance,
returning `length - 1` if the scan leaves the line, otherwise one less
than the first failing index. -/
def getNextIdxGo (cont : Int → Bool) (line : List Int) (i : Nat) : Nat :=
  if _h : i < line.length then
    if cont (line.getD i 0) then getNextIdxGo cont line (i + 1) else i - 1
  else line.length - 1
termination_by line.length - i

/-- `getNextWhiteX` et al.: the initial `x++`, then the scan loop. -/
def getNextIdx (cont : Int → Bool) (line : List Int) (s : Nat) : Nat :=
  getNextIdxGo cont line (s + 1)

/-- Ascending sort of the gathered run, `unsorted.sort((a, b) => a - b)`
(pixelSort.js lines 132, 180).  On `Int` lists the JS numeric sort
result is the unique ascending reordering, which `insertionSort`
computes. -/
def sortInts (l : List Int) : List Int :=
  List.insertionSort (· ≤ ·) l

/-- One run-sorting step of `sortRow`/`sortColumn` (pixelSort.js lines
124-137, 172-185): with run start `s` and `xEnd` value `e`, the length
`e - s` is computed, and when it exceeds 1 the packed values at
positions `s, …, s + (e-s) - 1 = e - 1` are gathered, sorted ascending
and written back over exactly those positions.  (In JS a negative
length also skips the sort; `Nat` subtraction collapses that case into
`e - s = 0`, which also skips.) -/
def sortSegment (line : List Int) (s e : Nat) : List Int :=
  if 1 < e - s then
    line.take s ++ sortInts ((line.drop s).take (e - s)) ++ line.drop e
  else line

theorem getFirstIdx_some_spec (skip : Int → Bool) (line : List Int) (x : Nat) :
    ∀ s, getFirstIdx skip line x = some s →
      x ≤ s ∧ s < line.length ∧ skip (line.getD s 0) = false ∧
      ∀ i, x ≤ i → i < s → skip (line.getD i 0) = true := by
  induction x using getFirstIdx.induct skip line with
  | case1 x hx hskip ih =>
    intro s hs
    rw [getFirstIdx, dif_pos hx, if_pos hskip] at hs
    obtain ⟨h1, h2, h3, h4⟩ := ih s hs
    refine ⟨by omega, h2, h3, ?_⟩
    intro i hxi his
    rcases Nat.eq_or_lt_of_le hxi with h | h
    · exact h ▸ hskip
    · exact h4 i h his
  | case2 x hx hskip =>
    intro s hs
    rw [getFirstIdx, dif_pos hx, if_neg hskip] at hs
    cases hs
    exact ⟨le_refl _, hx, Bool.eq_false_iff.mpr hskip,
      fun i h1 h2 => absurd h1 (by omega)⟩
  | case3 x hx =>
    intro s hs
    rw [getFirstIdx, dif_neg hx] at hs
    cases hs

theorem getFirstIdx_none_spec (skip : Int → Bool) (line : List Int) (x : Nat) :
    getFirstIdx skip line x = none →
      ∀ i, x ≤ i → i < line.length → skip (line.getD i 0) = true := by
  induction x using getFirstIdx.induct skip line with
  | case1 x hx hskip ih =>
    intro hs i hxi hi
    rw [getFirstIdx, dif_pos hx, if_pos hskip] at hs
    rcases Nat.eq_or_lt_of_le hxi with h | h
    · exact h ▸ hskip
    · exact ih hs i h hi
  | case2 x hx hskip =>
    intro hs
    rw [getFirstIdx, dif_pos hx, if_neg hskip] at hs
    cases hs
  | case3 x hx =>
    intro _ i hxi hi
    omega

theorem getNextIdxGo_spec (cont : Int → Bool) (line : List Int) (i : Nat)
    (hi1 : 1 ≤ i) (hi : i ≤ line.length) :
    (i - 1 ≤ getNextIdxGo cont line i ∧
      getNextIdxGo cont line i ≤ line.length - 1) ∧
    (∀ j, i ≤ j → j ≤ getNextIdxGo cont line i →
      cont (line.getD j 0) = true) ∧
    (getNextIdxGo cont line i + 1 < line.length →
      i ≤ getNextIdxGo cont line i + 1 →
      cont (line.getD (getNextIdxGo cont line i + 1) 0) = false) := by
  induction i using getNextIdxGo.induct cont line with
  | case1 i hlt hcont ih =>
    have he : getNextIdxGo cont line i = getNextIdxGo cont line (i + 1) := by
      rw [getNextIdxGo, dif_pos hlt, if_pos hcont]
    rw [he]
    obtain ⟨⟨b1, b2⟩, hall, hstop⟩ := ih (by omega) (by omega)
    refine ⟨⟨by omega, b2⟩, ?_, ?_⟩
    · intro j h1 h2
      rcases Nat.eq_or_lt_of_le h1 with h | h
      · exact h ▸ hcont
      · exact hall j h h2
    · intro h1 h2
      exact hstop h1 (by omega)
  | case2 i hlt hcont =>
    have he : getNextIdxGo cont line i = i - 1 := by
      rw [getNextIdxGo, dif_pos hlt, if_neg hcont]
    rw [he]
    refine ⟨⟨le_refl _, by omega⟩, ?_, ?_⟩
    · intro j h1 h2
      omega
    · intro h1 h2
      have h3 : i - 1 + 1 = i := by omega
      rw [h3]
      exact Bool.eq_false_iff.mpr hcont
  | case3 i hge =>
    have he : getNextIdxGo cont line i = line.length - 1 := by
      rw [getNextIdxGo, dif_neg hge]
    rw [he]
    refine ⟨⟨by omega, le_refl _⟩, ?_, ?_⟩
    · intro j h1 h2
      omega
    · intro h1 h2
      exact absurd h1 (by omega)

/-- Convenience bounds for `getNextIdx` at a valid run start. -/
theorem getNextIdx_bounds (cont : Int → Bool) (line : List Int) (s : Nat)
    (hs : s < line.length) :
    s ≤ getNextIdx cont line s ∧ getNextIdx cont line s ≤ line.length - 1 := by
  have h := (getNextIdxGo_spec cont line (s + 1) (by omega) (by omega)).1
  unfold getNextIdx
  omega

theorem sortSegment_length (line : List Int) (s e : Nat)
    (hse : s ≤ e) (hen : e ≤ line.length) :
    (sortSegment line s e).length = line.length := by
  unfold sortSegment
  split
  · simp only [List.length_append, List.length_take, List.length_drop,
      sortInts, List.length_insertionSort]
    omega
  · rfl

end ASDF

namespace ASDF

theorem sortInts_length (l : List Int) : (sortInts l).length = l.length :=
  List.length_insertionSort (· ≤ ·) l

theorem sortInts_perm (l : List Int) : (sortInts l).Perm l :=
  List.perm_insertionSort (· ≤ ·) l

theorem sortInts_sorted (l : List Int) : List.Sorted (· ≤ ·) (sortInts l) :=
  List.sorted_insertionSort (· ≤ ·) l

theorem sortSegment_getD_outside (line : List Int) (s e i : Nat)
    (hse : s ≤ e) (hen : e ≤ line.length) (h : i < s ∨ e ≤ i) :
    (sortSegment line s e).getD i 0 = line.getD i 0 := by
  unfold sortSegment
  split
  case isFalse => rfl
  case isTrue hgt =>
  have hs : s < line.length := by omega
  have hA : (line.take s).length = s := by
    rw [List.length_take]
    omega
  have hB : (sortInts ((line.drop s).take (e - s))).length = e - s := by
    rw [sortInts_length, List.length_take, List.length_drop]
    omega
  rw [List.getD_eq_getElem?_getD, List.getD_eq_getElem?_getD]
  rcases h with h | h
  · rw [List.getElem?_append, List.length_append, hA, hB, if_pos (by omega),
      List.getElem?_append, hA, if_pos (by omega), List.getElem?_take,
      if_pos h]
  · rw [List.getElem?_append, List.length_append, hA, hB, if_neg (by omega),
      List.getElem?_drop]
    congr 2
    omega

theorem sortSegment_slice_perm (line : List Int) (s e : Nat)
    (hse : s ≤ e) (hen : e ≤ line.length) :
    (((sortSegment line s e).drop s).take (e - s)).Perm
      ((line.drop s).take (e - s)) := by
  unfold sortSegment
  split
  case isFalse => exact List.Perm.refl _
  case isTrue hgt =>
  have hA : (line.take s).length = s := by
    rw [List.length_take]
    omega
  have hB : (sortInts ((line.drop s).take (e - s))).length = e - s := by
    rw [sortInts_length, List.length_take, List.length_drop]
    omega
  rw [List.append_assoc, List.drop_left' hA, List.take_left' hB]
  exact sortInts_perm _

/-- Two lists of equal length that agree (via `getD`) on `[s, s+k)` have
equal `[s, s+k)` slices. -/
theorem slice_eq_of_getD_eq (l₁ l₂ : List Int) (hlen : l₁.length = l₂.length)
    (s k : Nat) (h : ∀ i, s ≤ i → i < s + k → l₁.getD i 0 = l₂.getD i 0) :
    (l₁.drop s).take k = (l₂.drop s).take k := by
  apply List.ext_getElem
  · simp only [List.length_take, List.length_drop, hlen]
  · intro n h₁ h₂
    simp only [List.length_take, List.length_drop] at h₁ h₂
    rw [List.getElem_take, List.getElem_drop, List.getElem_take, List.getElem_drop]
    have hb₁ : s + n < l₁.length := by omega
    have hb₂ : s + n < l₂.length := by omega
    have e₁ : l₁.getD (s + n) 0 = l₁[s + n] :=
      List.getD_eq_getElem l₁ 0 hb₁
    have e₂ : l₂.getD (s + n) 0 = l₂[s + n] :=
      List.getD_eq_getElem l₂ 0 hb₂
    rw [← e₁, ← e₂]
    exact h (s + n) (by omega) (by omega)

/-- The scan-and-sort loop of `sortRow`/`sortColumn` (pixelSort.js lines
102-140, 150-188), from scan position `x`; returns the updated scanline
together with the list of `(x, xEnd)` pairs the scan produced (the
runs), in scan order.  The JS `if (x < 0) break` is the `none` branch
(the JS computes one more dead `xEnd` first, but breaks before using
it); the JS loop re-check `xEnd < width - 1` is the
`e + 1 < line.length` test. -/
def sortScanGo (skip cont : Int → Bool) (line : List Int) (x : Nat) :
    List Int × List (Nat × Nat) :=
  match hF : getFirstIdx skip line x with
  | none => (line, [])
  | some s =>
    let e := getNextIdx cont line s
    let line' := sortSegment line s e
    if e + 1 < line.length then
      let r := sortScanGo skip cont line' (e + 1)
      (r.1, (s, e) :: r.2)
    else
      (line', [(s, e)])
termination_by line.length - x
decreasing_by
  have hs := getFirstIdx_some_spec skip line x s hF
  have hb := getNextIdx_bounds cont line s hs.2.1
  have hlen := sortSegment_length line s (getNextIdx cont line s) hb.1
    (by omega)
  simp only [hlen]
  omega

/-- `sortRow`/`sortColumn` on one extracted scanline: the loop entry
condition `xEnd < width - 1` with `x = xEnd = 0` (pixelSort.js lines
99-102, 147-150). -/
def sortScanline (skip cont : Int → Bool) (line : List Int) :
    List Int × List (Nat × Nat) :=
  if 0 < line.length - 1 then sortScanGo skip cont line 0 else (line, [])

/-- The sorted scanline alone. -/
def sortScan (skip cont : Int → Bool) (line : List Int) : List Int :=
  (sortScanline skip cont line).1

end ASDF

namespace ASDF

/-!
Image-level model.  `sortRow` reads and writes the contiguous flat
indices `x + row*width`, `sortColumn` the strided indices
`column + y*width`; extracting the scanline, scanning it, and writing
every scanline position back is extensionally the same sequence of flat
reads and writes.  The packed buffer these functions act on is the
`Int32Array` built by `convertToRGB`, whose length is exactly
`width*height` whatever the byte buffer's length was, so with
`column < width - 1` and `row < height - 1` every scanline index below
is in range (`getD _ 0` is exact); the single boundary read at scanline
index `width` (resp. `height`) inside `getNext*` is absorbed by the
scanner model as explained above it.
-/

/-- The row `row` as read by `sortRow` (pixelSort.js line 129):
elements `pixels[x + row*width]`, `x < width`. -/
def getRow (pixels : List Int) (width row : Nat) : List Int :=
  (List.range width).map fun x => pixels.getD (x + row * width) 0

/-- Write a processed row back over the flat indices `x + row*width`
(pixelSort.js line 135); indices past the buffer end are discarded, as a
JS typed-array write out of range is. -/
def setRow (pixels : List Int) (width row : Nat) (newRow : List Int) :
    List Int :=
  (List.range pixels.length).map fun j =>
    if row * width ≤ j ∧ j < row * width + width then
      newRow.getD (j - row * width) 0
    else pixels.getD j 0

/-- The column `col` as read by `sortColumn` (pixelSort.js line 177):
elements `pixels[col + y*width]`, `y < height`. -/
def getCol (pixels : List Int) (width height col : Nat) : List Int :=
  (List.range height).map fun y => pixels.getD (col + y * width) 0

/-- Write a processed column back over the flat indices `col + y*width`
(pixelSort.js line 183); only existing indices are written.  For
`col < width` the flat indices of the column are exactly the `j` with
`j % width = col` and `j / width < height`. -/
def setCol (pixels : List Int) (width height col : Nat) (newCol : List Int) :
    List Int :=
  (List.range pixels.length).map fun j =>
    if j % width = col ∧ j / width < height then newCol.getD (j / width) 0
    else pixels.getD j 0

/-- `sortRow` (pixelSort.js lines 98-141): scan-and-sort the row `row`
with the mode's predicate pair. -/
def sortRowF (s : PixelSorter) (mode : SortMode) (pixels : List Int)
    (width row : Nat) : List Int :=
  setRow pixels width row
    (sortScan (skipPred s mode) (contPred s mode) (getRow pixels width row))

/-- `sortColumn` (pixelSort.js lines 146-189): scan-and-sort the column
`col` with the mode's predicate pair. -/
def sortColumnF (s : PixelSorter) (mode : SortMode) (pixels : List Int)
    (width height col : Nat) : List Int :=
  setCol pixels width height col
    (sortScan (skipPred s mode) (contPred s mode)
      (getCol pixels width height col))

/-- An `ImageData`-like buffer: dimensions plus flat RGBA bytes
(`data.length = 4*width*height` when well formed). -/
structure ImageData where
  width : Nat
  height : Nat
  data : List Nat
deriving Repr, DecidableEq

/-- `convertToRGB` (pixelSort.js lines 64-76): pack bytes `4i..4i+2`
into one signed 32-bit value per pixel.  A read past the end of `data`
yields `undefined`, which the JS bitwise ops coerce to 0, i.e.
`getD _ 0`. -/
def convertToRGB (pixels : List Nat) (width height : Nat) : List Int :=
  (List.range (width * height)).map fun i =>
    pack (pixels.getD (4 * i) 0) (pixels.getD (4 * i + 1) 0)
      (pixels.getD (4 * i + 2) 0)

/-- `convertToRGBA` (pixelSort.js lines 81-93): allocate a zero-filled
byte buffer of the original length, then for each packed pixel write the
three unpacked channels and copy the original alpha byte.  Writes past
the allocated length are discarded (typed array semantics), bytes never
written stay 0. -/
def convertToRGBA (rgbPixels : List Int) (originalPixels : List Nat) :
    List Nat :=
  (List.range originalPixels.length).map fun j =>
    if j / 4 < rgbPixels.length then
      if j % 4 = 0 then unpackR (rgbPixels.getD (j / 4) 0)
      else if j % 4 = 1 then unpackG (rgbPixels.getD (j / 4) 0)
      else if j % 4 = 2 then unpackB (rgbPixels.getD (j / 4) 0)
      else originalPixels.getD j 0
    else 0

/-- The column phase of `sortImage` (pixelSort.js lines 37-42): columns
`0 … width-2` in order. -/
def sortColumns (s : PixelSorter) (mode : SortMode) (rgb : List Int)
    (width height : Nat) : List Int :=
  (List.range (width - 1)).foldl
    (fun px col => sortColumnF s mode px width height col) rgb

/-- The row phase of `sortImage` (pixelSort.js lines 45-51): rows
`0 … height-2` in order, over the column-phase result. -/
def sortRows (s : PixelSorter) (mode : SortMode) (rgb : List Int)
    (width height : Nat) : List Int :=
  (List.range (height - 1)).foldl
    (fun px row => sortRowF s mode px width row) rgb

/-- `sortImage` (pixelSort.js lines 28-59) without the progress
callback, which never affects the buffer: copy the data, pack, sort all
columns then all rows, unpack with the original alpha. -/
def sortImage (s : PixelSorter) (img : ImageData) (mode : SortMode) :
    ImageData :=
  let pixels := img.data
  let rgb := convertToRGB pixels img.width img.height
  let rgb1 := sortColumns s mode rgb img.width img.height
  let rgb2 := sortRows s mode rgb1 img.width img.height
  { width := img.width, height := img.height,
    data := convertToRGBA rgb2 pixels }

/-- `sortImage` as a fallible computation.  The JS body of `sortImage`
(pixelSort.js lines 28-59) contains no validation and no throw of its
own: every pixel is processed first, and the only failure point is the
final `return new ImageData(sortedData, width, height)` on line 58.
Following the ImageData constructor's initialization steps, that
construction throws an InvalidStateError when the length of
`sortedData` (which equals the input data's length, see
`convertToRGBA_length`) is not a nonzero multiple of 4, an
IndexSizeError when the pixel count `length / 4` is not a multiple of
`width` or when `height` differs from `(length / 4) / width`, and
otherwise returns the buffer.  (`Nat` semantics render the `width = 0`
case directly: `p % 0 = p`, which is nonzero for a nonzero pixel
count, giving the IndexSizeError browsers raise for a zero width.) -/
def sortImageE (s : PixelSorter) (img : ImageData) (mode : SortMode) :
    Except String ImageData :=
  let out := sortImage s img mode
  if out.data.length = 0 ∨ out.data.length % 4 ≠ 0 then
    Except.error "InvalidStateError"
  else if (out.data.length / 4) % img.width ≠ 0 ∨
      img.height ≠ (out.data.length / 4) / img.width then
    Except.error "IndexSizeError"
  else
    Except.ok out

/-- The sequence of `(percentage, label)` progress-callback invocations
`sortImage` performs when a callback is supplied (pixelSort.js lines 36,
39-41, 45, 48-50, 56), in call order.  The JS percentages
`(column / width) * 50` and `50 + (row / height) * 50` are binary64
quotients; they are modelled as exact rationals, on which the float
rounding is monotone and stays within the same bounds. -/
def progressCalls (width height : Nat) : List (Rat × String) :=
  (0, "Sorting columns...") ::
    (((List.range (width - 1)).filterMap fun (column : Nat) =>
      if column % 10 = 0 then
        some (((column : Rat) / (width : Rat)) * 50, "Sorting columns...")
      else none) ++
    (50, "Sorting rows...") ::
      (((List.range (height - 1)).filterMap fun (row : Nat) =>
        if row % 10 = 0 then
          some (50 + ((row : Rat) / (height : Rat)) * 50, "Sorting rows...")
        else none) ++
      [(100, "Complete!")]))

end ASDF

namespace ASDF


theorem sortScanGo_eq_none (skip cont : Int → Bool) (line : List Int) (x : Nat)
    (hF : getFirstIdx skip line x = none) :
    sortScanGo skip cont line x = (line, []) := by
  rw [sortScanGo, hF]

theorem sortScanGo_eq_some (skip cont : Int → Bool) (line : List Int) (x s : Nat)
    (hF : getFirstIdx skip line x = some s) :
    sortScanGo skip cont line x =
      (if getNextIdx cont line s + 1 < line.length then
        ((sortScanGo skip cont (sortSegment line s (getNextIdx cont line s))
            (getNextIdx cont line s + 1)).1,
          (s, getNextIdx cont line s) ::
            (sortScanGo skip cont (sortSegment line s (getNextIdx cont line s))
              (getNextIdx cont line s + 1)).2)
      else (sortSegment line s (getNextIdx cont line s),
        [(s, getNextIdx cont line s)])) := by
  rw [sortScanGo, hF]

/-- Full characterisation of one scan-and-sort pass from position `x`:
the length is preserved; positions below `x` are untouched; every
produced run `(s, e)` starts at or after `x`, has its start failing the
skip predicate and its interior satisfying the continuation predicate of
the ORIGINAL line, stops either at the line end or just before a pixel
failing the continuation predicate, and the final content of the
written range `[s, e)` is a permutation of the original content there;
positions in no written range are untouched. -/
theorem sortScanGo_spec (skip cont : Int → Bool) (line : List Int) (x : Nat) :
    (sortScanGo skip cont line x).1.length = line.length ∧
    (∀ i, i < x → (sortScanGo skip cont line x).1.getD i 0 = line.getD i 0) ∧
    (∀ p, p ∈ (sortScanGo skip cont line x).2 →
      x ≤ p.1 ∧ p.1 ≤ p.2 ∧ p.2 < line.length ∧
      skip (line.getD p.1 0) = false ∧
      (∀ j, p.1 < j → j ≤ p.2 → cont (line.getD j 0) = true) ∧
      (p.2 + 1 < line.length → cont (line.getD (p.2 + 1) 0) = false) ∧
      (((sortScanGo skip cont line x).1.drop p.1).take (p.2 - p.1)).Perm
        ((line.drop p.1).take (p.2 - p.1))) ∧
    (∀ i, x ≤ i →
      (∀ p, p ∈ (sortScanGo skip cont line x).2 → i < p.1 ∨ p.2 ≤ i) →
      (sortScanGo skip cont line x).1.getD i 0 = line.getD i 0) := by
  induction line, x using sortScanGo.induct skip cont with
  | case1 line x hF =>
    rw [sortScanGo_eq_none skip cont line x hF]
    refine ⟨rfl, fun i _ => rfl, ?_, fun i _ _ => rfl⟩
    intro p hp
    simp at hp
  | case2 line x s hF e line' hlt ih =>
    obtain ⟨hxs, hsn, hsk, hmin⟩ := getFirstIdx_some_spec skip line x s hF
    have heq : e = getNextIdxGo cont line (s + 1) := rfl
    have hnx := getNextIdxGo_spec cont line (s + 1) (by omega) (by omega)
    obtain ⟨⟨hb1, hb2⟩, hcall, hcstop⟩ := hnx
    have hse : s ≤ e := by omega
    have hen : e < line.length := by omega
    have hlen' : line'.length = line.length :=
      sortSegment_length line s e hse (by omega)
    have hout : sortScanGo skip cont line x =
        ((sortScanGo skip cont line' (e + 1)).1,
          (s, e) :: (sortScanGo skip cont line' (e + 1)).2) := by
      rw [sortScanGo_eq_some skip cont line x s hF, if_pos hlt]
    obtain ⟨ihlen, ihframe, ihruns, ihun⟩ := ih
    have hagree : ∀ i, e ≤ i → line'.getD i 0 = line.getD i 0 :=
      fun i hi => sortSegment_getD_outside line s e i hse (by omega) (Or.inr hi)
    rw [hout]
    refine ⟨by rw [ihlen, hlen'], ?_, ?_, ?_⟩
    · -- frame below x
      intro i hi
      rw [ihframe i (by omega)]
      exact sortSegment_getD_outside line s e i hse (by omega) (Or.inl (by omega))
    · -- runs
      intro p hp
      rcases List.mem_cons.mp hp with hp | hp
      · -- the first run (s, e)
        subst hp
        refine ⟨hxs, hse, hen, hsk, ?_, ?_, ?_⟩
        · intro j h1 h2
          simp only at h1 h2
          exact hcall j (by omega) (by omega)
        · intro h1
          simp only at h1 ⊢
          show cont (line.getD (getNextIdxGo cont line (s + 1) + 1) 0) = false
          exact hcstop (by omega) (by omega)
        · -- permutation of the written range
          have hsl : ((sortScanGo skip cont line' (e + 1)).1.drop s).take (e - s) =
              (line'.drop s).take (e - s) := by
            apply slice_eq_of_getD_eq _ _ (by rw [ihlen]) s (e - s)
            intro i h1 h2
            exact ihframe i (by omega)
          rw [hsl]
          exact sortSegment_slice_perm line s e hse (by omega)
      · -- a later run
        obtain ⟨h1, h2, h3, h4, h5, h6, h7⟩ := ihruns p hp
        have hp1 : e + 1 ≤ p.1 := h1
        refine ⟨by omega, h2, by omega, ?_, ?_, ?_, ?_⟩
        · rw [← hagree p.1 (by omega)]
          exact h4
        · intro j hj1 hj2
          rw [← hagree j (by omega)]
          exact h5 j hj1 hj2
        · intro hj
          rw [← hagree (p.2 + 1) (by omega)]
          exact h6 (by omega)
        · have hsl : (line'.drop p.1).take (p.2 - p.1) =
              (line.drop p.1).take (p.2 - p.1) := by
            apply slice_eq_of_getD_eq _ _ hlen' p.1 (p.2 - p.1)
            intro i hi1 hi2
            exact hagree i (by omega)
          rw [← hsl]
          exact h7
    · -- untouched outside all runs
      intro i hxi hip
      have hfirst := hip (s, e) (List.mem_cons_self _ _)
      simp only at hfirst
      rcases hfirst with hlow | hhigh
      · -- x ≤ i < s
        rw [ihframe i (by omega)]
        exact sortSegment_getD_outside line s e i hse (by omega) (Or.inl hlow)
      · -- e ≤ i
        rcases Nat.eq_or_lt_of_le hhigh with heq | hgt
        · -- i = e : inside the frame of the recursion, untouched by the sort
          rw [ihframe i (by omega)]
          exact hagree i (by omega)
        · -- e < i : untouched by the recursion and by this segment
          rw [ihun i (by omega) (fun p hp => hip p (List.mem_cons_of_mem _ hp))]
          exact hagree i (by omega)
  | case3 line x s hF e hlt =>
    obtain ⟨hxs, hsn, hsk, hmin⟩ := getFirstIdx_some_spec skip line x s hF
    have heq : e = getNextIdxGo cont line (s + 1) := rfl
    have hnx := getNextIdxGo_spec cont line (s + 1) (by omega) (by omega)
    obtain ⟨⟨hb1, hb2⟩, hcall, hcstop⟩ := hnx
    have hse : s ≤ e := by omega
    have hen : e < line.length := by omega
    have hout : sortScanGo skip cont line x = (sortSegment line s e, [(s, e)]) := by
      rw [sortScanGo_eq_some skip cont line x s hF, if_neg hlt]
    rw [hout]
    refine ⟨sortSegment_length line s e hse (by omega), ?_, ?_, ?_⟩
    · intro i hi
      exact sortSegment_getD_outside line s e i hse (by omega) (Or.inl (by omega))
    · intro p hp
      rcases List.mem_cons.mp hp with hp | hp
      · subst hp
        refine ⟨hxs, hse, hen, hsk, ?_, ?_, ?_⟩
        · intro j h1 h2
          simp only at h1 h2
          exact hcall j (by omega) (by omega)
        · intro h1
          simp only at h1 ⊢
          show cont (line.getD (getNextIdxGo cont line (s + 1) + 1) 0) = false
          exact hcstop (by omega) (by omega)
        · exact sortSegment_slice_perm line s e hse (by omega)
      · simp at hp
    · intro i hxi hip
      have hfirst := hip (s, e) (List.mem_cons_self _ _)
      simp only at hfirst
      exact sortSegment_getD_outside line s e i hse (by omega) hfirst
end ASDF

namespace ASDF

theorem sortSegment_perm (line : List Int) (s e : Nat)
    (hse : s ≤ e) (hen : e ≤ line.length) :
    (sortSegment line s e).Perm line := by
  unfold sortSegment
  split
  case isFalse => exact List.Perm.refl _
  case isTrue hgt =>
  have hmid : (line.drop s).take (e - s) ++ line.drop e = line.drop s := by
    have h1 : line.drop e = (line.drop s).drop (e - s) := by
      rw [List.drop_drop]
      congr 1
      omega
    rw [h1, List.take_append_drop]
  have hp : (line.take s ++ (sortInts ((line.drop s).take (e - s)) ++
      line.drop e)).Perm
      (line.take s ++ ((line.drop s).take (e - s) ++ line.drop e)) :=
    List.Perm.append_left _ (List.Perm.append_right _ (sortInts_perm _))
  rw [hmid, List.take_append_drop] at hp
  rw [List.append_assoc]
  exact hp

theorem sortScanGo_perm (skip cont : Int → Bool) (line : List Int) (x : Nat) :
    (sortScanGo skip cont line x).1.Perm line := by
  induction line, x using sortScanGo.induct skip cont with
  | case1 line x hF =>
    rw [sortScanGo_eq_none skip cont line x hF]
  | case2 line x s hF e line' hlt ih =>
    obtain ⟨hxs, hsn, hsk, hmin⟩ := getFirstIdx_some_spec skip line x s hF
    have heq : e = getNextIdxGo cont line (s + 1) := rfl
    obtain ⟨⟨hb1, hb2⟩, hcall, hcstop⟩ :=
      getNextIdxGo_spec cont line (s + 1) (by omega) (by omega)
    have hout : sortScanGo skip cont line x =
        ((sortScanGo skip cont line' (e + 1)).1,
          (s, e) :: (sortScanGo skip cont line' (e + 1)).2) := by
      rw [sortScanGo_eq_some skip cont line x s hF, if_pos hlt]
    rw [hout]
    exact ih.trans (sortSegment_perm line s e (by omega) (by omega))
  | case3 line x s hF e hlt =>
    obtain ⟨hxs, hsn, hsk, hmin⟩ := getFirstIdx_some_spec skip line x s hF
    have heq : e = getNextIdxGo cont line (s + 1) := rfl
    obtain ⟨⟨hb1, hb2⟩, hcall, hcstop⟩ :=
      getNextIdxGo_spec cont line (s + 1) (by omega) (by omega)
    have hout : sortScanGo skip cont line x =
        (sortSegment line s e, [(s, e)]) := by
      rw [sortScanGo_eq_some skip cont line x s hF, if_neg hlt]
    rw [hout]
    exact sortSegment_perm line s e (by omega) (by omega)

theorem sortScan_perm (skip cont : Int → Bool) (line : List Int) :
    (sortScan skip cont line).Perm line := by
  unfold sortScan sortScanline
  split
  · exact sortScanGo_perm skip cont line 0
  · exact List.Perm.refl _

theorem sortScan_length (skip cont : Int → Bool) (line : List Int) :
    (sortScan skip cont line).length = line.length :=
  (sortScan_perm skip cont line).length_eq

/-- The last pixel of a scanline is never written by the scan-and-sort
pass: every run's write range `[s, e)` satisfies `e ≤ length - 1`. -/
theorem sortScan_getD_last (skip cont : Int → Bool) (line : List Int)
    (i : Nat) (hi : line.length - 1 ≤ i) :
    (sortScan skip cont line).getD i 0 = line.getD i 0 := by
  unfold sortScan sortScanline
  split
  case isFalse => rfl
  case isTrue hn =>
  obtain ⟨hlen, hframe, hruns, hun⟩ := sortScanGo_spec skip cont line 0
  exact hun i (by omega) (fun p hp => Or.inr (by
    have := (hruns p hp).2.2.1
    omega))

/-- `getD` of a mapped range. -/
theorem getD_map_range {α : Type} (d : α) (f : Nat → α) (n j : Nat) :
    (((List.range n).map f).getD j d) =
      if j < n then f j else d := by
  rw [List.getD_eq_getElem?_getD]
  split
  case isTrue h =>
    rw [List.getElem?_map]
    rw [List.getElem?_range h]
    rfl
  case isFalse h =>
    have : ((List.range n).map f)[j]? = none := by
      rw [List.getElem?_eq_none]
      simp only [List.length_map, List.length_range]
      omega
    rw [this]
    rfl

end ASDF

namespace ASDF
/-- Number of pixels inside a list of runs, counting a run `(s, e)` as
the `e - s + 1` indices `s..e` (the span the scan delimited). -/
def runsTot (l : List (Nat × Nat)) : Nat :=
  (l.map fun p => p.2 - p.1 + 1).sum

/-- In all four modes a pixel passing the continuation test also passes
the start test (`c > v → ¬(c < v)` and its three mirrors), so the
pixels covered by runs are exactly the pixels failing the skip
predicate.  This lemma: the runs produced from scan position `x` cover
`e - s + 1` pixels each, and in total exactly the indices `i ≥ x` with
`skip` false. -/
theorem sortScanGo_count (skip cont : Int → Bool)
    (himp : ∀ c, cont c = true → skip c = false)
    (line : List Int) (x : Nat) :
    runsTot (sortScanGo skip cont line x).2 =
      ((Finset.range line.length).filter
        (fun i => x ≤ i ∧ skip (line.getD i 0) = false)).card := by
  induction line, x using sortScanGo.induct skip cont with
  | case1 line x hF =>
    rw [sortScanGo_eq_none skip cont line x hF]
    have hall := getFirstIdx_none_spec skip line x hF
    rw [show runsTot ((line, []) : List Int × List (Nat × Nat)).2 = 0 from rfl]
    symm
    rw [Finset.card_eq_zero, Finset.filter_eq_empty_iff]
    intro i hi
    rw [Finset.mem_range] at hi
    intro hcon
    have := hall i hcon.1 hi
    rw [hcon.2] at this
    cases this
  | case2 line x s hF e line' hlt ih =>
    obtain ⟨hxs, hsn, hsk, hmin⟩ := getFirstIdx_some_spec skip line x s hF
    have heq : e = getNextIdxGo cont line (s + 1) := rfl
    obtain ⟨⟨hb1, hb2⟩, hcall, hcstop⟩ :=
      getNextIdxGo_spec cont line (s + 1) (by omega) (by omega)
    have hse : s ≤ e := by omega
    have hen : e < line.length := by omega
    have hlen' : line'.length = line.length :=
      sortSegment_length line s e hse (by omega)
    have hout : sortScanGo skip cont line x =
        ((sortScanGo skip cont line' (e + 1)).1,
          (s, e) :: (sortScanGo skip cont line' (e + 1)).2) := by
      rw [sortScanGo_eq_some skip cont line x s hF, if_pos hlt]
    have hagree : ∀ i, e ≤ i → line'.getD i 0 = line.getD i 0 :=
      fun i hi => sortSegment_getD_outside line s e i hse (by omega) (Or.inr hi)
    rw [hout]
    have hrt : runsTot ((s, e) :: (sortScanGo skip cont line' (e + 1)).2) =
        (e - s + 1) + runsTot (sortScanGo skip cont line' (e + 1)).2 := by
      unfold runsTot
      rw [List.map_cons, List.sum_cons]
    rw [hrt, ih]
    -- rewrite the recursion's filter to speak about the original line
    have hfeq : ((Finset.range line'.length).filter
          (fun i => e + 1 ≤ i ∧ skip (line'.getD i 0) = false)) =
        ((Finset.range line.length).filter
          (fun i => e + 1 ≤ i ∧ skip (line.getD i 0) = false)) := by
      rw [hlen']
      apply Finset.filter_congr
      intro i hi
      rw [Finset.mem_range] at hi
      constructor
      · rintro ⟨h1, h2⟩
        rw [hagree i (by omega)] at h2
        exact ⟨h1, h2⟩
      · rintro ⟨h1, h2⟩
        rw [← hagree i (by omega)] at h2
        exact ⟨h1, h2⟩
    rw [hfeq]
    -- split the main filter into the run `[s, e]` and the rest
    have hsplit : ((Finset.range line.length).filter
          (fun i => x ≤ i ∧ skip (line.getD i 0) = false)) =
        ((Finset.range line.length).filter (fun i => s ≤ i ∧ i ≤ e)) ∪
        ((Finset.range line.length).filter
          (fun i => e + 1 ≤ i ∧ skip (line.getD i 0) = false)) := by
      ext i
      simp only [Finset.mem_union, Finset.mem_filter, Finset.mem_range]
      constructor
      · rintro ⟨hi, hxi, hns⟩
        by_cases hie : i ≤ e
        · left
          refine ⟨hi, ?_, hie⟩
          by_contra hlt2
          have := hmin i hxi (by omega)
          rw [hns] at this
          cases this
        · right
          exact ⟨hi, by omega, hns⟩
      · rintro (⟨hi, hsi, hie⟩ | ⟨hi, hei, hns⟩)
        · refine ⟨hi, by omega, ?_⟩
          rcases Nat.eq_or_lt_of_le hsi with hh | hh
          · rw [← hh]
            exact hsk
          · exact himp _ (hcall i (by omega) (by omega))
        · exact ⟨hi, by omega, hns⟩
    rw [hsplit, Finset.card_union_of_disjoint]
    · congr 1
      have : ((Finset.range line.length).filter (fun i => s ≤ i ∧ i ≤ e)) =
          Finset.Icc s e := by
        ext i
        simp only [Finset.mem_filter, Finset.mem_range, Finset.mem_Icc]
        omega
      rw [this, Nat.card_Icc]
      omega
    · rw [Finset.disjoint_filter]
      intro i _ hie hcon
      omega
  | case3 line x s hF e hlt =>
    obtain ⟨hxs, hsn, hsk, hmin⟩ := getFirstIdx_some_spec skip line x s hF
    have heq : e = getNextIdxGo cont line (s + 1) := rfl
    obtain ⟨⟨hb1, hb2⟩, hcall, hcstop⟩ :=
      getNextIdxGo_spec cont line (s + 1) (by omega) (by omega)
    have hse : s ≤ e := by omega
    have hen : e < line.length := by omega
    have hout : sortScanGo skip cont line x =
        (sortSegment line s e, [(s, e)]) := by
      rw [sortScanGo_eq_some skip cont line x s hF, if_neg hlt]
    rw [hout]
    have hrt : runsTot [(s, e)] = e - s + 1 := by
      unfold runsTot
      simp
    rw [hrt]
    have : ((Finset.range line.length).filter
          (fun i => x ≤ i ∧ skip (line.getD i 0) = false)) =
        Finset.Icc s e := by
      ext i
      simp only [Finset.mem_filter, Finset.mem_range, Finset.mem_Icc]
      constructor
      · rintro ⟨hi, hxi, hns⟩
        refine ⟨?_, by omega⟩
        by_contra hlt2
        have := hmin i hxi (by omega)
        rw [hns] at this
        cases this
      · rintro ⟨hsi, hie⟩
        refine ⟨by omega, by omega, ?_⟩
        rcases Nat.eq_or_lt_of_le hsi with hh | hh
        · rw [← hh]
          exact hsk
        · exact himp _ (hcall i (by omega) (by omega))
    rw [this, Nat.card_Icc]
    omega

end ASDF

namespace ASDF


/-- Flat index arithmetic: column of `x + y*w`. -/
theorem idx_mod (x y w : Nat) (hx : x < w) : (x + y * w) % w = x := by
  rw [Nat.add_mul_mod_self_right, Nat.mod_eq_of_lt hx]

/-- Flat index arithmetic: row of `x + y*w`. -/
theorem idx_div (x y w : Nat) (hx : x < w) : (x + y * w) / w = y := by
  rw [Nat.add_mul_div_right _ _ (by omega), Nat.div_eq_of_lt hx]
  omega

theorem getRow_length (pixels : List Int) (w row : Nat) :
    (getRow pixels w row).length = w := by
  unfold getRow
  rw [List.length_map, List.length_range]

theorem getCol_length (pixels : List Int) (w h col : Nat) :
    (getCol pixels w h col).length = h := by
  unfold getCol
  rw [List.length_map, List.length_range]

theorem getRow_getD (pixels : List Int) (w row x : Nat) (hx : x < w) :
    (getRow pixels w row).getD x 0 = pixels.getD (x + row * w) 0 := by
  unfold getRow
  rw [getD_map_range, if_pos hx]

theorem getCol_getD (pixels : List Int) (w h col y : Nat) (hy : y < h) :
    (getCol pixels w h col).getD y 0 = pixels.getD (col + y * w) 0 := by
  unfold getCol
  rw [getD_map_range, if_pos hy]

theorem setRow_length (pixels : List Int) (w row : Nat) (nr : List Int) :
    (setRow pixels w row nr).length = pixels.length := by
  unfold setRow
  rw [List.length_map, List.length_range]

theorem setCol_length (pixels : List Int) (w h col : Nat) (nc : List Int) :
    (setCol pixels w h col nc).length = pixels.length := by
  unfold setCol
  rw [List.length_map, List.length_range]

theorem setRow_getD (pixels : List Int) (w row : Nat) (nr : List Int) (j : Nat) :
    (setRow pixels w row nr).getD j 0 =
      if j < pixels.length ∧ row * w ≤ j ∧ j < row * w + w then
        nr.getD (j - row * w) 0
      else pixels.getD j 0 := by
  unfold setRow
  rw [getD_map_range]
  by_cases hj : j < pixels.length
  · rw [if_pos hj]
    by_cases hr : row * w ≤ j ∧ j < row * w + w
    · rw [if_pos hr, if_pos ⟨hj, hr⟩]
    · rw [if_neg hr, if_neg (by tauto)]
  · rw [if_neg hj, if_neg (by tauto)]
    rw [List.getD_eq_getElem?_getD, List.getElem?_eq_none (by omega)]
    rfl

theorem setCol_getD (pixels : List Int) (w h col : Nat) (nc : List Int) (j : Nat) :
    (setCol pixels w h col nc).getD j 0 =
      if j < pixels.length ∧ j % w = col ∧ j / w < h then
        nc.getD (j / w) 0
      else pixels.getD j 0 := by
  unfold setCol
  rw [getD_map_range]
  by_cases hj : j < pixels.length
  · rw [if_pos hj]
    by_cases hr : j % w = col ∧ j / w < h
    · rw [if_pos hr, if_pos ⟨hj, hr⟩]
    · rw [if_neg hr, if_neg (by tauto)]
  · rw [if_neg hj, if_neg (by tauto)]
    rw [List.getD_eq_getElem?_getD, List.getElem?_eq_none (by omega)]
    rfl

theorem sortRowF_length (s : PixelSorter) (mode : SortMode) (pixels : List Int)
    (w row : Nat) : (sortRowF s mode pixels w row).length = pixels.length := by
  unfold sortRowF
  exact setRow_length _ _ _ _

theorem sortColumnF_length (s : PixelSorter) (mode : SortMode)
    (pixels : List Int) (w h col : Nat) :
    (sortColumnF s mode pixels w h col).length = pixels.length := by
  unfold sortColumnF
  exact setCol_length _ _ _ _ _

/-- `sortRow` touches only the flat indices of its own row. -/
theorem sortRowF_frame (s : PixelSorter) (mode : SortMode) (pixels : List Int)
    (w row j : Nat) (hj : j < row * w ∨ row * w + w ≤ j) :
    (sortRowF s mode pixels w row).getD j 0 = pixels.getD j 0 := by
  unfold sortRowF
  rw [setRow_getD, if_neg (by omega)]

/-- `sortColumn` touches only the flat indices of its own column. -/
theorem sortColumnF_frame (s : PixelSorter) (mode : SortMode)
    (pixels : List Int) (w h col j : Nat) (hj : j % w ≠ col ∨ h ≤ j / w) :
    (sortColumnF s mode pixels w h col).getD j 0 = pixels.getD j 0 := by
  unfold sortColumnF
  rcases hj with hj | hj
  · rw [setCol_getD, if_neg (fun hcon => hj hcon.2.1)]
  · rw [setCol_getD, if_neg (fun hcon => absurd hcon.2.2 (Nat.not_lt.mpr hj))]

/-- Within its own row, `sortRow` writes the scanned row back: position
`row*w + x` receives element `x` of the sorted scanline. -/
theorem sortRowF_getD_in (s : PixelSorter) (mode : SortMode)
    (pixels : List Int) (w row j : Nat) (hjlen : j < pixels.length)
    (hlo : row * w ≤ j) (hhi : j < row * w + w) :
    (sortRowF s mode pixels w row).getD j 0 =
      (sortScan (skipPred s mode) (contPred s mode)
        (getRow pixels w row)).getD (j - row * w) 0 := by
  unfold sortRowF
  rw [setRow_getD, if_pos ⟨hjlen, hlo, hhi⟩]

/-- Within its own column, `sortColumn` writes the scanned column back:
position `col + y*w` receives element `y` of the sorted scanline. -/
theorem sortColumnF_getD_in (s : PixelSorter) (mode : SortMode)
    (pixels : List Int) (w h col y : Nat) (hjlen : col + y * w < pixels.length)
    (hcol : col < w) (hrow : y < h) :
    (sortColumnF s mode pixels w h col).getD (col + y * w) 0 =
      (sortScan (skipPred s mode) (contPred s mode)
        (getCol pixels w h col)).getD y 0 := by
  unfold sortColumnF
  rw [setCol_getD,
    if_pos ⟨hjlen, by rw [idx_mod _ _ _ hcol], by rw [idx_div _ _ _ hcol]; exact hrow⟩,
    idx_div _ _ _ hcol]

/-- `sortColumn` leaves every pixel of the last row unchanged: every
run bound satisfies `e ≤ h - 1`, so index `h - 1` of the column is
outside every written range. -/
theorem sortColumnF_lastRow (s : PixelSorter) (mode : SortMode)
    (pixels : List Int) (w h col x : Nat) (hh : 1 ≤ h) (hx : x < w) :
    (sortColumnF s mode pixels w h col).getD (x + (h - 1) * w) 0 =
      pixels.getD (x + (h - 1) * w) 0 := by
  by_cases hc : x = col
  · subst hc
    by_cases hjlen : x + (h - 1) * w < pixels.length
    · rw [sortColumnF_getD_in s mode pixels w h x (h - 1) hjlen hx (by omega)]
      rw [sortScan_getD_last _ _ _ _ (by rw [getCol_length])]
      rw [getCol_getD _ _ _ _ _ (by omega)]
    · unfold sortColumnF
      rw [setCol_getD, if_neg (by omega)]
  · exact sortColumnF_frame s mode pixels w h col _
      (Or.inl (by rw [idx_mod _ _ _ hx]; exact hc))

/-- `sortRow` leaves every pixel of the last column unchanged: every
run bound satisfies `e ≤ w - 1`, so index `w - 1` of the row is outside
every written range. -/
theorem sortRowF_lastCol (s : PixelSorter) (mode : SortMode)
    (pixels : List Int) (w row y : Nat) (hw : 1 ≤ w) :
    (sortRowF s mode pixels w row).getD ((w - 1) + y * w) 0 =
      pixels.getD ((w - 1) + y * w) 0 := by
  by_cases hr : y = row
  · subst hr
    by_cases hjlen : (w - 1) + y * w < pixels.length
    · rw [sortRowF_getD_in s mode pixels w y _ hjlen (by omega) (by omega)]
      have hx : (w - 1) + y * w - y * w = w - 1 := by omega
      rw [hx]
      rw [sortScan_getD_last _ _ _ _ (by rw [getRow_length])]
      rw [getRow_getD _ _ _ _ (by omega)]
    · unfold sortRowF
      rw [setRow_getD, if_neg (by omega)]
  · refine sortRowF_frame s mode pixels w row _ ?_
    rcases Nat.lt_or_ge y row with h | h
    · left
      have : y * w + w ≤ row * w := by
        calc y * w + w = (y + 1) * w := by ring
          _ ≤ row * w := Nat.mul_le_mul_right w (by omega)
      omega
    · right
      have hyr : row < y := by omega
      have : row * w + w ≤ y * w := by
        calc row * w + w = (row + 1) * w := by ring
          _ ≤ y * w := Nat.mul_le_mul_right w (by omega)
      omega

end ASDF

namespace ASDF

/-- `getCol` of a freshly written column recovers the written scanline
(on a full-size buffer). -/
theorem getCol_setCol_self (pixels : List Int) (w h col : Nat)
    (nc : List Int) (hlen : pixels.length = w * h) (hc : col < w)
    (hnc : nc.length = h) :
    getCol (setCol pixels w h col nc) w h col = nc := by
  apply List.ext_getElem
  · rw [getCol_length, hnc]
  · intro y h1 h2
    rw [getCol_length] at h1
    have e1 : (getCol (setCol pixels w h col nc) w h col)[y] =
        (getCol (setCol pixels w h col nc) w h col).getD y 0 :=
      (List.getD_eq_getElem _ _ _).symm
    have e2 : nc[y] = nc.getD y 0 := (List.getD_eq_getElem _ _ _).symm
    rw [e1, e2, getCol_getD _ _ _ _ _ h1, setCol_getD]
    rw [if_pos ⟨by nlinarith [Nat.succ_le_of_lt h1],
      by rw [idx_mod _ _ _ hc], by rw [idx_div _ _ _ hc]; exact h1⟩]
    rw [idx_div _ _ _ hc]

/-- `getCol` at a different column is unaffected by `sortColumn`. -/
theorem getCol_sortColumnF_ne (s : PixelSorter) (mode : SortMode)
    (pixels : List Int) (w h col col' : Nat) (hc : col' < w)
    (hne : col' ≠ col) :
    getCol (sortColumnF s mode pixels w h col) w h col' =
      getCol pixels w h col' := by
  unfold getCol
  apply List.map_congr_left
  intro y _
  exact sortColumnF_frame s mode pixels w h col _
    (Or.inl (by rw [idx_mod _ _ _ hc]; exact hne))

/-- `getRow` of a freshly written row recovers the written scanline
(on a full-size buffer). -/
theorem getRow_setRow_self (pixels : List Int) (w h row : Nat)
    (nr : List Int) (hlen : pixels.length = w * h) (hr : row < h)
    (hnr : nr.length = w) :
    getRow (setRow pixels w row nr) w row = nr := by
  apply List.ext_getElem
  · rw [getRow_length, hnr]
  · intro x h1 h2
    rw [getRow_length] at h1
    have e1 : (getRow (setRow pixels w row nr) w row)[x] =
        (getRow (setRow pixels w row nr) w row).getD x 0 :=
      (List.getD_eq_getElem _ _ _).symm
    have e2 : nr[x] = nr.getD x 0 := (List.getD_eq_getElem _ _ _).symm
    rw [e1, e2, getRow_getD _ _ _ _ h1, setRow_getD]
    rw [if_pos ⟨by nlinarith [Nat.succ_le_of_lt hr], by omega, by omega⟩]
    congr 1
    omega

/-- `getRow` at a different row is unaffected by `sortRow`. -/
theorem getRow_sortRowF_ne (s : PixelSorter) (mode : SortMode)
    (pixels : List Int) (w row row' : Nat) (hne : row' ≠ row) :
    getRow (sortRowF s mode pixels w row) w row' =
      getRow pixels w row' := by
  unfold getRow
  apply List.map_congr_left
  intro x hx
  rw [List.mem_range] at hx
  refine sortRowF_frame s mode pixels w row _ ?_
  rcases Nat.lt_or_ge row' row with h | h
  · left
    have : row' * w + w ≤ row * w := by
      calc row' * w + w = (row' + 1) * w := by ring
        _ ≤ row * w := Nat.mul_le_mul_right w (by omega)
    omega
  · right
    have hgt : row < row' := by omega
    have : row * w + w ≤ row' * w := by
      calc row * w + w = (row + 1) * w := by ring
        _ ≤ row' * w := Nat.mul_le_mul_right w (by omega)
    omega

end ASDF

namespace ASDF


/-- Invariants of folding `sortColumn` over a list of distinct columns
below `width`, on a full-size packed buffer: the length is preserved,
unprocessed columns are untouched, the last row is untouched, and every
column of the result is a permutation of the same column of the input. -/
theorem foldCols_spec (s : PixelSorter) (mode : SortMode) (w h : Nat) :
    ∀ (L : List Nat) (rgb : List Int), (∀ c ∈ L, c < w) → L.Nodup →
      rgb.length = w * h →
      (L.foldl (fun px col => sortColumnF s mode px w h col) rgb).length =
          rgb.length ∧
      (∀ x y, x < w → x ∉ L →
        (L.foldl (fun px col => sortColumnF s mode px w h col) rgb).getD
            (x + y * w) 0 = rgb.getD (x + y * w) 0) ∧
      (1 ≤ h → ∀ x, x < w →
        (L.foldl (fun px col => sortColumnF s mode px w h col) rgb).getD
            (x + (h - 1) * w) 0 = rgb.getD (x + (h - 1) * w) 0) ∧
      (∀ col, col < w →
        (getCol (L.foldl (fun px col => sortColumnF s mode px w h col) rgb)
            w h col).Perm (getCol rgb w h col)) := by
  intro L
  induction L with
  | nil =>
    intro rgb _ _ _
    exact ⟨rfl, fun x y _ _ => rfl, fun _ x _ => rfl,
      fun col _ => List.Perm.refl _⟩
  | cons c cs ih =>
    intro rgb hlt hnd hlen
    have hc : c < w := hlt c (List.mem_cons_self _ _)
    have hnd' : cs.Nodup := (List.nodup_cons.mp hnd).2
    have hcni : c ∉ cs := (List.nodup_cons.mp hnd).1
    have hstep : (c :: cs).foldl
        (fun px col => sortColumnF s mode px w h col) rgb =
        cs.foldl (fun px col => sortColumnF s mode px w h col)
          (sortColumnF s mode rgb w h c) := rfl
    have hlen1 : (sortColumnF s mode rgb w h c).length = rgb.length :=
      sortColumnF_length s mode rgb w h c
    obtain ⟨ih1, ih2, ih3, ih4⟩ := ih (sortColumnF s mode rgb w h c)
      (fun c' hc' => hlt c' (List.mem_cons_of_mem _ hc'))
      hnd' (by rw [hlen1, hlen])
    rw [hstep]
    refine ⟨by rw [ih1, hlen1], ?_, ?_, ?_⟩
    · intro x y hx hxn
      have hxc : x ≠ c := fun hh => hxn (hh ▸ List.mem_cons_self _ _)
      have hxcs : x ∉ cs := fun hh => hxn (List.mem_cons_of_mem _ hh)
      rw [ih2 x y hx hxcs]
      exact sortColumnF_frame s mode rgb w h c _
        (Or.inl (by rw [idx_mod _ _ _ hx]; exact hxc))
    · intro hh x hx
      rw [ih3 hh x hx]
      exact sortColumnF_lastRow s mode rgb w h c x hh hx
    · intro col hcol
      refine (ih4 col hcol).trans ?_
      by_cases hcc : col = c
      · subst hcc
        have hsc : getCol (sortColumnF s mode rgb w h col) w h col =
            sortScan (skipPred s mode) (contPred s mode)
              (getCol rgb w h col) := by
          unfold sortColumnF
          exact getCol_setCol_self rgb w h col _ hlen hcol
            (by rw [sortScan_length, getCol_length])
        rw [hsc]
        exact sortScan_perm _ _ _
      · rw [getCol_sortColumnF_ne s mode rgb w h c col hcol hcc]

/-- Invariants of folding `sortRow` over a list of distinct rows below
`height`, on a full-size packed buffer: the length is preserved,
unprocessed rows are untouched, the last column is untouched, and every
row of the result is a permutation of the same row of the input. -/
theorem foldRows_spec (s : PixelSorter) (mode : SortMode) (w h : Nat) :
    ∀ (L : List Nat) (rgb : List Int), (∀ r ∈ L, r < h) → L.Nodup →
      rgb.length = w * h →
      (L.foldl (fun px row => sortRowF s mode px w row) rgb).length =
          rgb.length ∧
      (∀ x y, x < w → y ∉ L →
        (L.foldl (fun px row => sortRowF s mode px w row) rgb).getD
            (x + y * w) 0 = rgb.getD (x + y * w) 0) ∧
      (1 ≤ w → ∀ y,
        (L.foldl (fun px row => sortRowF s mode px w row) rgb).getD
            ((w - 1) + y * w) 0 = rgb.getD ((w - 1) + y * w) 0) ∧
      (∀ row, row < h →
        (getRow (L.foldl (fun px row => sortRowF s mode px w row) rgb)
            w row).Perm (getRow rgb w row)) := by
  intro L
  induction L with
  | nil =>
    intro rgb _ _ _
    exact ⟨rfl, fun x y _ _ => rfl, fun _ y => rfl, fun row _ => List.Perm.refl _⟩
  | cons r rs ih =>
    intro rgb hlt hnd hlen
    have hr : r < h := hlt r (List.mem_cons_self _ _)
    have hnd' : rs.Nodup := (List.nodup_cons.mp hnd).2
    have hstep : (r :: rs).foldl (fun px row => sortRowF s mode px w row) rgb =
        rs.foldl (fun px row => sortRowF s mode px w row)
          (sortRowF s mode rgb w r) := rfl
    have hlen1 : (sortRowF s mode rgb w r).length = rgb.length :=
      sortRowF_length s mode rgb w r
    obtain ⟨ih1, ih2, ih3, ih4⟩ := ih (sortRowF s mode rgb w r)
      (fun r' hr' => hlt r' (List.mem_cons_of_mem _ hr'))
      hnd' (by rw [hlen1, hlen])
    rw [hstep]
    refine ⟨by rw [ih1, hlen1], ?_, ?_, ?_⟩
    · intro x y hx hyn
      have hyr : y ≠ r := fun hh => hyn (hh ▸ List.mem_cons_self _ _)
      have hyrs : y ∉ rs := fun hh => hyn (List.mem_cons_of_mem _ hh)
      rw [ih2 x y hx hyrs]
      have heq : getRow (sortRowF s mode rgb w r) w y = getRow rgb w y :=
        getRow_sortRowF_ne s mode rgb w r y hyr
      refine sortRowF_frame s mode rgb w r _ ?_
      rcases Nat.lt_or_ge y r with hlt2 | hge
      · left
        have : y * w + w ≤ r * w := by
          calc y * w + w = (y + 1) * w := by ring
            _ ≤ r * w := Nat.mul_le_mul_right w (by omega)
        omega
      · right
        have hgt : r < y := by omega
        have : r * w + w ≤ y * w := by
          calc r * w + w = (r + 1) * w := by ring
            _ ≤ y * w := Nat.mul_le_mul_right w (by omega)
        omega
    · intro hw y
      rw [ih3 hw y]
      exact sortRowF_lastCol s mode rgb w r y hw
    · intro row hrow
      refine (ih4 row hrow).trans ?_
      by_cases hrr : row = r
      · subst hrr
        have hsc : getRow (sortRowF s mode rgb w row) w row =
            sortScan (skipPred s mode) (contPred s mode)
              (getRow rgb w row) := by
          unfold sortRowF
          exact getRow_setRow_self rgb w h row _ hlen hrow
            (by rw [sortScan_length, getRow_length])
        rw [hsc]
        exact sortScan_perm _ _ _
      · rw [getRow_sortRowF_ne s mode rgb w r row hrr]

end ASDF

namespace ASDF

theorem card_filter_range_eq_countP (p : Nat → Prop) [DecidablePred p]
    (n : Nat) :
    ((Finset.range n).filter p).card =
      (List.range n).countP (fun i => decide (p i)) := by
  induction n with
  | zero => rfl
  | succ n ih =>
    rw [Finset.range_succ, Finset.filter_insert, List.range_succ,
      List.countP_append]
    by_cases hp : p n
    · rw [if_pos hp, Finset.card_insert_of_not_mem (by
        intro hmem
        exact absurd (Finset.mem_range.mp (Finset.mem_filter.mp hmem).1)
          (lt_irrefl n))]
      rw [ih]
      simp [hp]
    · rw [if_neg hp, ih]
      simp [hp]

theorem map_getD_range_eq (l : List Int) :
    (List.range l.length).map (fun i => l.getD i 0) = l := by
  apply List.ext_getElem
  · rw [List.length_map, List.length_range]
  · intro n h1 h2
    simp only [List.length_map, List.length_range] at h1
    rw [List.getElem_map, List.getElem_range]
    rw [← List.getD_eq_getElem l 0 h2]

/-- The total number of pixels the scan places inside runs is the
number of pixels failing the skip predicate, whenever the scanline has
at least 2 pixels and the continuation test implies the start test
(which holds in all four modes). -/
theorem scanline_count (skip cont : Int → Bool)
    (himp : ∀ c, cont c = true → skip c = false) (line : List Int)
    (hn : 2 ≤ line.length) :
    runsTot (sortScanline skip cont line).2 =
      line.countP (fun c => !skip c) := by
  unfold sortScanline
  rw [if_pos (by omega)]
  rw [sortScanGo_count skip cont himp line 0]
  have h1 : ((Finset.range line.length).filter
        (fun i => 0 ≤ i ∧ skip (line.getD i 0) = false)) =
      ((Finset.range line.length).filter
        (fun i => skip (line.getD i 0) = false)) := by
    apply Finset.filter_congr
    intro i _
    constructor
    · exact fun h => h.2
    · exact fun h => ⟨Nat.zero_le i, h⟩
  rw [h1, card_filter_range_eq_countP]
  have h2 : line.countP (fun c => !skip c) =
      ((List.range line.length).map (fun i => line.getD i 0)).countP
        (fun c => !skip c) := by
    rw [map_getD_range_eq]
  rw [h2, List.countP_map]
  apply List.countP_congr
  intro i _
  constructor
  · intro h
    simpa using h
  · intro h
    simpa using h

end ASDF

namespace ASDF

theorem getD_drop (l : List Int) (n m : Nat) :
    (l.drop n).getD m 0 = l.getD (n + m) 0 := by
  rw [List.getD_eq_getElem?_getD, List.getD_eq_getElem?_getD,
    List.getElem?_drop]

theorem map_getD_range_take (l : List Int) (w : Nat) (hw : w ≤ l.length) :
    (List.range w).map (fun i => l.getD i 0) = l.take w := by
  apply List.ext_getElem
  · rw [List.length_map, List.length_range, List.length_take]
    omega
  · intro n h1 h2
    simp only [List.length_map, List.length_range] at h1
    rw [List.getElem_map, List.getElem_range, List.getElem_take]
    exact List.getD_eq_getElem l 0 (by omega)

theorem getRow_zero (rgb : List Int) (w : Nat) (hw : w ≤ rgb.length) :
    getRow rgb w 0 = rgb.take w := by
  unfold getRow
  rw [← map_getD_range_take rgb w hw]
  apply List.map_congr_left
  intro x _
  congr 1
  omega

theorem getRow_succ (rgb : List Int) (w y : Nat) :
    getRow rgb w (y + 1) = getRow (rgb.drop w) w y := by
  unfold getRow
  apply List.map_congr_left
  intro x _
  rw [getD_drop]
  congr 1
  ring

theorem getCol_succ (rgb : List Int) (w h c : Nat) :
    getCol rgb w (h + 1) c = rgb.getD c 0 :: getCol (rgb.drop w) w h c := by
  unfold getCol
  rw [List.range_succ_eq_map, List.map_cons, List.map_map]
  congr 1
  · congr 1
    omega
  · apply List.map_congr_left
    intro y _
    simp only [Function.comp_apply]
    rw [getD_drop]
    congr 1
    rw [Nat.succ_mul]
    ring

theorem sum_map_add {α : Type} (l : List α) (f g : α → Nat) :
    (l.map (fun a => f a + g a)).sum = (l.map f).sum + (l.map g).sum := by
  induction l with
  | nil => rfl
  | cons a l ih =>
    simp only [List.map_cons, List.sum_cons, ih]
    omega

theorem sum_ite_eq_countP {α : Type} (l : List α) (q : α → Bool) :
    (l.map (fun a => if q a then 1 else 0)).sum = l.countP q := by
  induction l with
  | nil => rfl
  | cons a l ih =>
    rw [List.map_cons, List.sum_cons, List.countP_cons, ih]
    by_cases hq : q a <;> simp [hq, Nat.add_comm]

/-- The rows of a `w*h` buffer partition it: summing a count over all
rows gives the count over the whole buffer. -/
theorem sum_countP_rows (p : Int → Bool) (w : Nat) :
    ∀ (h : Nat) (rgb : List Int), rgb.length = w * h →
      ((List.range h).map (fun y => (getRow rgb w y).countP p)).sum =
        rgb.countP p := by
  intro h
  induction h with
  | zero =>
    intro rgb hlen
    have : rgb = [] := List.length_eq_zero.mp (by omega)
    subst this
    rfl
  | succ h ih =>
    intro rgb hlen
    have hlen' : rgb.length = w * h + w := by
      rw [hlen, Nat.mul_succ]
    rw [List.range_succ_eq_map, List.map_cons, List.sum_cons, List.map_map]
    have h1 : getRow rgb w 0 = rgb.take w :=
      getRow_zero rgb w (by omega)
    have h2 : ((List.range h).map
          ((fun y => (getRow rgb w y).countP p) ∘ Nat.succ)).sum =
        ((List.range h).map (fun y => (getRow (rgb.drop w) w y).countP p)).sum := by
      congr 1
      apply List.map_congr_left
      intro y _
      simp only [Function.comp_apply]
      rw [getRow_succ]
    rw [h1, h2, ih (rgb.drop w) (by rw [List.length_drop]; omega)]
    rw [← List.countP_append, List.take_append_drop]

/-- The columns of a `w*h` buffer partition it: summing a count over
all columns gives the count over the whole buffer. -/
theorem sum_countP_cols (p : Int → Bool) (w : Nat) :
    ∀ (h : Nat) (rgb : List Int), rgb.length = w * h →
      ((List.range w).map (fun c => (getCol rgb w h c).countP p)).sum =
        rgb.countP p := by
  intro h
  induction h with
  | zero =>
    intro rgb hlen
    have hrgb : rgb = [] := List.length_eq_zero.mp (by omega)
    subst hrgb
    have hc0 : ∀ c, getCol ([] : List Int) w 0 c = [] := fun c => rfl
    simp [hc0]
  | succ h ih =>
    intro rgb hlen
    have hlen' : rgb.length = w * h + w := by
      rw [hlen, Nat.mul_succ]
    have h1 : ∀ c, getCol rgb w (h + 1) c =
        rgb.getD c 0 :: getCol (rgb.drop w) w h c := fun c => getCol_succ rgb w h c
    have h2 : ((List.range w).map (fun c => (getCol rgb w (h + 1) c).countP p)).sum =
        ((List.range w).map (fun c =>
          (getCol (rgb.drop w) w h c).countP p +
            (if p (rgb.getD c 0) then 1 else 0))).sum := by
      congr 1
      apply List.map_congr_left
      intro c _
      rw [h1 c, List.countP_cons]
    rw [h2, sum_map_add, ih (rgb.drop w) (by rw [List.length_drop]; omega)]
    have h3 : ((List.range w).map (fun c => if p (rgb.getD c 0) then 1 else 0)).sum =
        (rgb.take w).countP p := by
      rw [← map_getD_range_take rgb w (by omega), ← sum_ite_eq_countP,
        List.map_map]
      rfl
    rw [h3, Nat.add_comm, ← List.countP_append, List.take_append_drop]

/-- The last row of a `w*h` buffer as a suffix. -/
theorem getRow_last_eq_drop (rgb : List Int) (w h : Nat) (hh : 1 ≤ h)
    (hlen : rgb.length = w * h) :
    getRow rgb w (h - 1) = rgb.drop ((h - 1) * w) := by
  have e : (h - 1) * w + w = w * h := by
    obtain ⟨n, rfl⟩ : ∃ n, h = n + 1 := ⟨h - 1, by omega⟩
    simp only [Nat.add_sub_cancel]
    rw [Nat.mul_succ]
    ring
  apply List.ext_getElem
  · rw [getRow_length, List.length_drop]
    omega
  · intro x h1 h2
    rw [getRow_length] at h1
    have e1 : (getRow rgb w (h - 1))[x] = (getRow rgb w (h - 1)).getD x 0 :=
      (List.getD_eq_getElem _ _ _).symm
    rw [e1, getRow_getD rgb w (h - 1) x h1]
    rw [List.getElem_drop]
    rw [List.getD_eq_getElem rgb 0 (by omega)]
    congr 1
    omega

end ASDF

namespace ASDF

theorem convertToRGB_length (pixels : List Nat) (w h : Nat) :
    (convertToRGB pixels w h).length = w * h := by
  unfold convertToRGB
  rw [List.length_map, List.length_range]

/-- In every mode, a pixel passing the continuation test passes the
start test (`c > v` excludes `c < v`, and the three mirrors). -/
theorem contPred_imp_skipPred (s : PixelSorter) (mode : SortMode) :
    ∀ c, contPred s mode c = true → skipPred s mode c = false := by
  intro c hc
  cases mode
  all_goals
    simp only [contPred, skipPred, decide_eq_true_eq] at hc
  all_goals
    simp only [skipPred, decide_eq_false_iff_not]
  all_goals
    omega

/-- A scanline of fewer than 2 pixels produces no runs (the loop entry
condition `xEnd < width - 1` fails immediately). -/
theorem runsTot_short (skip cont : Int → Bool) (line : List Int)
    (hn : line.length ≤ 1) :
    runsTot (sortScanline skip cont line).2 = 0 := by
  unfold sortScanline
  rw [if_neg (by omega)]
  rfl

/-- One column-phase step carrying the ghost count of run pixels: the
grid is transformed exactly as `sortColumn` transforms it, and the
number of pixels the scan of that column placed inside runs (`xEnd - x
+ 1` per run) is accumulated. -/
def colStep (s : PixelSorter) (mode : SortMode) (w h : Nat)
    (acc : List Int × Nat) (col : Nat) : List Int × Nat :=
  (sortColumnF s mode acc.1 w h col,
    acc.2 + runsTot (sortScanline (skipPred s mode) (contPred s mode)
      (getCol acc.1 w h col)).2)

/-- One row-phase step carrying the ghost count of run pixels. -/
def rowStep (s : PixelSorter) (mode : SortMode) (w : Nat)
    (acc : List Int × Nat) (row : Nat) : List Int × Nat :=
  (sortRowF s mode acc.1 w row,
    acc.2 + runsTot (sortScanline (skipPred s mode) (contPred s mode)
      (getRow acc.1 w row)).2)

/-- Total number of pixels included in runs over a whole `sortImage`
execution (column phase then row phase, each scanline scanned on the
buffer state it actually sees), in chronological order. -/
def engineRunPixels (s : PixelSorter) (mode : SortMode)
    (img : ImageData) : Nat :=
  let rgb := convertToRGB img.data img.width img.height
  let c := (List.range (img.width - 1)).foldl
    (colStep s mode img.width img.height) (rgb, 0)
  let r := (List.range (img.height - 1)).foldl
    (rowStep s mode img.width) (c.1, 0)
  c.2 + r.2

theorem foldl_colStep_fst (s : PixelSorter) (mode : SortMode) (w h : Nat) :
    ∀ (L : List Nat) (rgb : List Int) (n : Nat),
      (L.foldl (colStep s mode w h) (rgb, n)).1 =
        L.foldl (fun px col => sortColumnF s mode px w h col) rgb := by
  intro L
  induction L with
  | nil => intro rgb n; rfl
  | cons c cs ih => intro rgb n; exact ih _ _

theorem foldl_rowStep_fst (s : PixelSorter) (mode : SortMode) (w : Nat) :
    ∀ (L : List Nat) (rgb : List Int) (n : Nat),
      (L.foldl (rowStep s mode w) (rgb, n)).1 =
        L.foldl (fun px row => sortRowF s mode px w row) rgb := by
  intro L
  induction L with
  | nil => intro rgb n; rfl
  | cons r rs ih => intro rgb n; exact ih _ _

/-- The column-phase count equals the per-column counts taken on the
initial buffer: a column is never modified before it is scanned. -/
theorem foldl_colStep_snd (s : PixelSorter) (mode : SortMode) (w h : Nat) :
    ∀ (L : List Nat) (rgb : List Int) (n : Nat), (∀ c ∈ L, c < w) →
      L.Nodup → rgb.length = w * h →
      (L.foldl (colStep s mode w h) (rgb, n)).2 =
        n + (L.map (fun c => runsTot (sortScanline (skipPred s mode)
          (contPred s mode) (getCol rgb w h c)).2)).sum := by
  intro L
  induction L with
  | nil => intro rgb n _ _ _; rfl
  | cons c cs ih =>
    intro rgb n hlt hnd hlen
    have hc : c < w := hlt c (List.mem_cons_self _ _)
    have hstep : (c :: cs).foldl (colStep s mode w h) (rgb, n) =
        cs.foldl (colStep s mode w h) (sortColumnF s mode rgb w h c,
          n + runsTot (sortScanline (skipPred s mode) (contPred s mode)
            (getCol rgb w h c)).2) := rfl
    rw [hstep, ih _ _ (fun c' h' => hlt c' (List.mem_cons_of_mem _ h'))
      (List.nodup_cons.mp hnd).2
      (by rw [sortColumnF_length, hlen])]
    rw [List.map_cons, List.sum_cons]
    have hmap : cs.map (fun c' => runsTot (sortScanline (skipPred s mode)
          (contPred s mode)
          (getCol (sortColumnF s mode rgb w h c) w h c')).2) =
        cs.map (fun c' => runsTot (sortScanline (skipPred s mode)
          (contPred s mode) (getCol rgb w h c')).2) := by
      apply List.map_congr_left
      intro c' hc'
      rw [getCol_sortColumnF_ne s mode rgb w h c c'
        (hlt c' (List.mem_cons_of_mem _ hc'))
        (fun hh => (List.nodup_cons.mp hnd).1 (hh ▸ hc'))]
    rw [hmap]
    omega

/-- The row-phase count equals the per-row counts taken on the buffer
the row phase starts from: a row is never modified before it is
scanned. -/
theorem foldl_rowStep_snd (s : PixelSorter) (mode : SortMode) (w : Nat) :
    ∀ (L : List Nat) (rgb : List Int) (n : Nat), L.Nodup →
      (L.foldl (rowStep s mode w) (rgb, n)).2 =
        n + (L.map (fun r => runsTot (sortScanline (skipPred s mode)
          (contPred s mode) (getRow rgb w r)).2)).sum := by
  intro L
  induction L with
  | nil => intro rgb n _; rfl
  | cons r rs ih =>
    intro rgb n hnd
    have hstep : (r :: rs).foldl (rowStep s mode w) (rgb, n) =
        rs.foldl (rowStep s mode w) (sortRowF s mode rgb w r,
          n + runsTot (sortScanline (skipPred s mode) (contPred s mode)
            (getRow rgb w r)).2) := rfl
    rw [hstep, ih _ _ (List.nodup_cons.mp hnd).2]
    rw [List.map_cons, List.sum_cons]
    have hmap : rs.map (fun r' => runsTot (sortScanline (skipPred s mode)
          (contPred s mode) (getRow (sortRowF s mode rgb w r) w r')).2) =
        rs.map (fun r' => runsTot (sortScanline (skipPred s mode)
          (contPred s mode) (getRow rgb w r')).2) := by
      apply List.map_congr_left
      intro r' hr'
      rw [getRow_sortRowF_ne s mode rgb w r r'
        (fun hh => (List.nodup_cons.mp hnd).1 (hh ▸ hr'))]
    rw [hmap]
    omega

end ASDF

namespace ASDF


/-- Closed form for the row-phase run-pixel count: the column phase
permutes values only within columns and never writes the last row, so
the row phase (rows `0 … h-2`, each of length `w ≥ 2`) places in runs
exactly the non-skipped pixels of the first `h-1` rows of the original
packed buffer. -/
theorem rowPhaseCount_closed (s : PixelSorter) (mode : SortMode)
    (rgb : List Int) (w h : Nat) (hw : 2 ≤ w) (hh : 1 ≤ h)
    (hlen : rgb.length = w * h) :
    ((List.range (h - 1)).map (fun r => runsTot (sortScanline
      (skipPred s mode) (contPred s mode)
      (getRow ((List.range (w - 1)).foldl
        (fun px col => sortColumnF s mode px w h col) rgb) w r)).2)).sum =
    (rgb.take ((h - 1) * w)).countP (fun c => !skipPred s mode c) := by
  have hcols := foldCols_spec s mode w h (List.range (w - 1)) rgb
    (fun c hc => by rw [List.mem_range] at hc; omega)
    (List.nodup_range _) hlen
  obtain ⟨hG1len, hG1un, hG1last, hG1perm⟩ := hcols
  set G1 := (List.range (w - 1)).foldl
    (fun px col => sortColumnF s mode px w h col) rgb with hG1
  have hG1l : G1.length = w * h := by rw [hG1len, hlen]
  -- each row's run pixels are its non-skipped pixels
  have hrow : ∀ r, runsTot (sortScanline (skipPred s mode) (contPred s mode)
      (getRow G1 w r)).2 =
      (getRow G1 w r).countP (fun c => !skipPred s mode c) := by
    intro r
    exact scanline_count _ _ (contPred_imp_skipPred s mode) _
      (by rw [getRow_length]; omega)
  have hsum1 : ((List.range (h - 1)).map (fun r => runsTot (sortScanline
      (skipPred s mode) (contPred s mode) (getRow G1 w r)).2)).sum =
      ((List.range (h - 1)).map (fun r =>
        (getRow G1 w r).countP (fun c => !skipPred s mode c))).sum := by
    congr 1
    exact List.map_congr_left (fun r _ => hrow r)
  rw [hsum1]
  -- all rows sum to the whole buffer count
  have hall : ((List.range h).map (fun r =>
      (getRow G1 w r).countP (fun c => !skipPred s mode c))).sum =
      G1.countP (fun c => !skipPred s mode c) :=
    sum_countP_rows _ w h G1 hG1l
  have hsplit : List.range h = List.range (h - 1) ++ [h - 1] := by
    conv_lhs => rw [show h = (h - 1) + 1 from by omega]
    rw [List.range_succ]
  rw [hsplit, List.map_append, List.sum_append] at hall
  simp only [List.map_cons, List.map_nil, List.sum_cons, List.sum_nil] at hall
  -- the last row of the column-phase output is the original last row
  have hlast : getRow G1 w (h - 1) = getRow rgb w (h - 1) := by
    unfold getRow
    exact List.map_congr_left (fun x hx => by
      rw [List.mem_range] at hx
      exact hG1last hh x hx)
  -- the whole-buffer count is unchanged by the column phase
  have htot : G1.countP (fun c => !skipPred s mode c) =
      rgb.countP (fun c => !skipPred s mode c) := by
    rw [← sum_countP_cols _ w h G1 hG1l, ← sum_countP_cols _ w h rgb hlen]
    congr 1
    exact List.map_congr_left (fun col hcol => by
      rw [List.mem_range] at hcol
      exact (hG1perm col (by omega)).countP_eq _)
  -- last row as a suffix of the original buffer
  have hdrop : getRow rgb w (h - 1) = rgb.drop ((h - 1) * w) :=
    getRow_last_eq_drop rgb w h hh hlen
  have htd : rgb.countP (fun c => !skipPred s mode c) =
      (rgb.take ((h - 1) * w)).countP (fun c => !skipPred s mode c) +
      (rgb.drop ((h - 1) * w)).countP (fun c => !skipPred s mode c) := by
    rw [← List.countP_append, List.take_append_drop]
  rw [hlast, hdrop] at hall
  rw [htot, htd] at hall
  omega

/-- Increasing `brightValue` weakens the run-membership predicate
pixelwise. -/
theorem skipPred_bright_mono (s1 : PixelSorter) (v2 : Int)
    (hv : s1.brightValue ≤ v2) (c : Int)
    (h : (!skipPred { s1 with brightValue := v2 } SortMode.bright c) = true) :
    (!skipPred s1 SortMode.bright c) = true := by
  simp only [skipPred, Bool.not_eq_true', decide_eq_false_iff_not] at *
  omega

end ASDF

namespace ASDF


/-- C8.  Increasing `brightValue` in Bright mode never increases the
total number of pixels the engine includes in runs, for a fixed image. -/
theorem C8_bright_threshold_monotonic (img : ImageData) (s1 : PixelSorter)
    (v2 : Int) (hv : s1.brightValue ≤ v2) :
    engineRunPixels { s1 with brightValue := v2 } SortMode.bright img ≤
      engineRunPixels s1 SortMode.bright img := by
  set s2 : PixelSorter := { s1 with brightValue := v2 } with hs2
  set w := img.width
  set h := img.height
  set rgb := convertToRGB img.data w h with hrgb
  have hlen : rgb.length = w * h := convertToRGB_length _ _ _
  have hcmem : ∀ c ∈ List.range (w - 1), c < w := fun c hc => by
    rw [List.mem_range] at hc
    omega
  -- split both engine totals into column count + row count
  have hsplit : ∀ s : PixelSorter, engineRunPixels s SortMode.bright img =
      ((List.range (w - 1)).map (fun c => runsTot (sortScanline
        (skipPred s SortMode.bright) (contPred s SortMode.bright)
        (getCol rgb w h c)).2)).sum +
      ((List.range (h - 1)).map (fun r => runsTot (sortScanline
        (skipPred s SortMode.bright) (contPred s SortMode.bright)
        (getRow ((List.range (w - 1)).foldl
          (fun px col => sortColumnF s SortMode.bright px w h col) rgb)
          w r)).2)).sum := by
    intro s
    simp only [engineRunPixels]
    rw [foldl_colStep_snd s SortMode.bright w h (List.range (w - 1)) rgb 0
      hcmem (List.nodup_range _) hlen]
    rw [foldl_colStep_fst s SortMode.bright w h (List.range (w - 1)) rgb 0]
    rw [foldl_rowStep_snd s SortMode.bright w (List.range (h - 1)) _ 0
      (List.nodup_range _)]
    omega
  rw [hsplit s1, hsplit s2]
  -- column phase: pointwise comparison on the fixed buffer
  have hcol : ((List.range (w - 1)).map (fun c => runsTot (sortScanline
      (skipPred s2 SortMode.bright) (contPred s2 SortMode.bright)
      (getCol rgb w h c)).2)).sum ≤
      ((List.range (w - 1)).map (fun c => runsTot (sortScanline
        (skipPred s1 SortMode.bright) (contPred s1 SortMode.bright)
        (getCol rgb w h c)).2)).sum := by
    apply List.sum_le_sum
    intro c _
    by_cases hh : 2 ≤ h
    · rw [scanline_count _ _ (contPred_imp_skipPred s2 SortMode.bright) _
        (by rw [getCol_length]; omega)]
      rw [scanline_count _ _ (contPred_imp_skipPred s1 SortMode.bright) _
        (by rw [getCol_length]; omega)]
      exact List.countP_mono_left
        (fun x _ => skipPred_bright_mono s1 v2 hv x)
    · rw [runsTot_short _ _ _ (by rw [getCol_length]; omega)]
      exact Nat.zero_le _
  -- row phase
  have hrow : ((List.range (h - 1)).map (fun r => runsTot (sortScanline
      (skipPred s2 SortMode.bright) (contPred s2 SortMode.bright)
      (getRow ((List.range (w - 1)).foldl
        (fun px col => sortColumnF s2 SortMode.bright px w h col) rgb)
        w r)).2)).sum ≤
      ((List.range (h - 1)).map (fun r => runsTot (sortScanline
        (skipPred s1 SortMode.bright) (contPred s1 SortMode.bright)
        (getRow ((List.range (w - 1)).foldl
          (fun px col => sortColumnF s1 SortMode.bright px w h col) rgb)
          w r)).2)).sum := by
    by_cases hw : 2 ≤ w
    · by_cases hh : 1 ≤ h
      · rw [rowPhaseCount_closed s2 SortMode.bright rgb w h hw hh hlen]
        rw [rowPhaseCount_closed s1 SortMode.bright rgb w h hw hh hlen]
        exact List.countP_mono_left
          (fun x _ => skipPred_bright_mono s1 v2 hv x)
      · have h0 : h - 1 = 0 := by omega
        rw [h0]
        exact le_refl _
    · have hz : ∀ (s : PixelSorter) (r : Nat), runsTot (sortScanline
          (skipPred s SortMode.bright) (contPred s SortMode.bright)
          (getRow ((List.range (w - 1)).foldl
            (fun px col => sortColumnF s SortMode.bright px w h col) rgb)
            w r)).2 = 0 := by
        intro s r
        exact runsTot_short _ _ _ (by rw [getRow_length]; omega)
      have hz2 : ∀ (s : PixelSorter),
          ((List.range (h - 1)).map (fun r => runsTot (sortScanline
            (skipPred s SortMode.bright) (contPred s SortMode.bright)
            (getRow ((List.range (w - 1)).foldl
              (fun px col => sortColumnF s SortMode.bright px w h col) rgb)
              w r)).2)).sum = 0 := by
        intro s
        rw [List.sum_eq_zero]
        intro x hx
        rw [List.mem_map] at hx
        obtain ⟨r, _, hr⟩ := hx
        rw [← hr, hz s r]
      rw [hz2 s1, hz2 s2]
  omega

end ASDF

namespace ASDF


/-- Witness for C8 at a concrete image and thresholds. -/
theorem C8_bright_threshold_monotonic_witness :
    (defaultSorter.brightValue ≤ 200) ∧
    engineRunPixels { defaultSorter with brightValue := 200 }
        SortMode.bright
        { width := 2, height := 2,
          data := [200, 200, 200, 255, 10, 10, 10, 255,
                   250, 250, 250, 255, 5, 5, 5, 255] } ≤
      engineRunPixels defaultSorter SortMode.bright
        { width := 2, height := 2,
          data := [200, 200, 200, 255, 10, 10, 10, 255,
                   250, 250, 250, 255, 5, 5, 5, 255] } :=
  ⟨by decide, C8_bright_threshold_monotonic _ defaultSorter 200 (by decide)⟩

end ASDF

namespace ASDF


/-- Modelled from the claim's words (C1, refinement): "the run end at
the last consecutive index from the start whose packed value is ≤
whiteValue, the scan stopping at (excluding) the first index where the
packed value is > whiteValue" — extend the run while the next pixel's
packed value is ≤ whiteValue. -/
def specWhiteRunEnd (wv : Int) (line : List Int) (start : Nat) : Nat :=
  if h : start + 1 < line.length ∧ line.getD (start + 1) 0 ≤ wv then
    specWhiteRunEnd wv line (start + 1)
  else start
termination_by line.length - start

/-- C1 counterexample: on the scanline of four white pixels (packed
value -1) with the default whiteValue -12345678, the engine's white
run detection yields start 0 and end 3, although index 1 has packed
value -1 > whiteValue, which the claimed rule excludes from the run;
the end the claim's rule (extend while packed ≤ whiteValue) produces
is 0, not 3.  The continuation comparison is inverted in the claim. -/
theorem C1_counterexample :
    getFirstIdx (skipPred defaultSorter SortMode.white)
      [-1, -1, -1, -1] 0 = some 0 ∧
    getNextIdx (contPred defaultSorter SortMode.white)
      [-1, -1, -1, -1] 0 = 3 ∧
    specWhiteRunEnd defaultSorter.whiteValue [-1, -1, -1, -1] 0 = 0 ∧
    ((-1 : Int) ≤ defaultSorter.whiteValue) = False := by
  refine ⟨?_, ?_, ?_, by decide⟩
  · simp [getFirstIdx, skipPred, defaultSorter]
  · simp [getNextIdx, getNextIdxGo, contPred, defaultSorter]
  · rw [specWhiteRunEnd]
    simp [defaultSorter]

/-- C1 (amended).  In White mode, for every scanline, the run start is
the first index from the scan position whose packed value is ≥
whiteValue (no run when there is none); the run end is the last
consecutive index after the start whose packed value is > whiteValue —
the scan stops at (excluding) the first index where the packed value is
≤ whiteValue — or the last index of the scanline if the scan runs off
the end. -/
theorem C1_white_run_detection (s : PixelSorter) (line : List Int)
    (x st : Nat)
    (hfind : getFirstIdx (skipPred s SortMode.white) line x = some st) :
    (x ≤ st ∧ st < line.length ∧ s.whiteValue ≤ line.getD st 0 ∧
      (∀ i, x ≤ i → i < st → line.getD i 0 < s.whiteValue)) ∧
    (st ≤ getNextIdx (contPred s SortMode.white) line st ∧
      getNextIdx (contPred s SortMode.white) line st ≤ line.length - 1 ∧
      (∀ j, st < j → j ≤ getNextIdx (contPred s SortMode.white) line st →
        s.whiteValue < line.getD j 0) ∧
      (getNextIdx (contPred s SortMode.white) line st + 1 < line.length →
        line.getD (getNextIdx (contPred s SortMode.white) line st + 1) 0 ≤
          s.whiteValue)) := by
  obtain ⟨h1, h2, h3, h4⟩ := getFirstIdx_some_spec _ line x st hfind
  obtain ⟨⟨b1, b2⟩, hall, hstop⟩ :=
    getNextIdxGo_spec (contPred s SortMode.white) line (st + 1)
      (by omega) (by omega)
  simp only [skipPred, decide_eq_false_iff_not, Int.not_lt] at h3 h4
  refine ⟨⟨h1, h2, h3, ?_⟩, ?_, ?_, ?_, ?_⟩
  · intro i hi1 hi2
    have := h4 i hi1 hi2
    simp only [skipPred, decide_eq_true_eq] at this
    exact this
  · unfold getNextIdx
    omega
  · unfold getNextIdx
    omega
  · intro j hj1 hj2
    have := hall j (by omega) (by unfold getNextIdx at hj2; omega)
    simp only [contPred, decide_eq_true_eq] at this
    exact this
  · intro hlt
    have := hstop (by unfold getNextIdx at hlt; exact hlt) (by omega)
    simp only [contPred, decide_eq_false_iff_not, Int.not_lt, gt_iff_lt]
      at this
    exact this

/-- Witness for C1 at a concrete scanline: whiteValue 0, scanline
[-5, 2, 3, -7, 4], scan position 0: start 1, end 2. -/
theorem C1_white_run_detection_witness :
    getFirstIdx (skipPred ⟨0, 0, 0, 0⟩ SortMode.white)
        [-5, 2, 3, -7, 4] 0 = some 1 ∧
    ((0 ≤ 1 ∧ 1 < 5 ∧ (0 : Int) ≤ 2 ∧
      (∀ i, 0 ≤ i → i < 1 →
        [(-5 : Int), 2, 3, -7, 4].getD i 0 < 0)) ∧
    (1 ≤ getNextIdx (contPred ⟨0, 0, 0, 0⟩ SortMode.white)
        [-5, 2, 3, -7, 4] 1 ∧
      getNextIdx (contPred ⟨0, 0, 0, 0⟩ SortMode.white)
        [-5, 2, 3, -7, 4] 1 ≤ 4 ∧
      (∀ j, 1 < j → j ≤ getNextIdx (contPred ⟨0, 0, 0, 0⟩ SortMode.white)
        [-5, 2, 3, -7, 4] 1 →
        (0 : Int) < [(-5 : Int), 2, 3, -7, 4].getD j 0) ∧
      (getNextIdx (contPred ⟨0, 0, 0, 0⟩ SortMode.white)
          [-5, 2, 3, -7, 4] 1 + 1 < 5 →
        [(-5 : Int), 2, 3, -7, 4].getD
          (getNextIdx (contPred ⟨0, 0, 0, 0⟩ SortMode.white)
            [-5, 2, 3, -7, 4] 1 + 1) 0 ≤ 0))) := by
  have hfind : getFirstIdx (skipPred ⟨0, 0, 0, 0⟩ SortMode.white)
      [-5, 2, 3, -7, 4] 0 = some 1 := by
    simp [getFirstIdx, skipPred]
  exact ⟨hfind,
    C1_white_run_detection ⟨0, 0, 0, 0⟩ [-5, 2, 3, -7, 4] 0 1 hfind⟩

end ASDF

namespace ASDF


/-- Modelled from the claim's words (C2, refinement): when the run
length `end - start + 1` exceeds 1, gather the packed colors at
positions `start..end` inclusive, sort ascending, write back over
exactly those positions. -/
def claimSortRun (line : List Int) (s e : Nat) : List Int :=
  if 1 < e - s + 1 then
    line.take s ++ sortInts ((line.drop s).take (e - s + 1)) ++
      line.drop (e + 1)
  else line

/-- C2 counterexample: white mode with whiteValue 0 on the scanline
[5, 3] detects the run (start 0, end 1).  The claimed rule (sort when
end - start + 1 > 1, over positions start..end) would write [3, 5];
the engine compares `sortingLength = end - start = 1` against 1, does
not sort, and leaves [5, 3] unchanged — and when it does sort, it
writes only positions start..end-1. -/
theorem C2_counterexample :
    sortScanline (skipPred ⟨0, 0, 0, 0⟩ SortMode.white)
      (contPred ⟨0, 0, 0, 0⟩ SortMode.white) [5, 3] =
      ([5, 3], [(0, 1)]) ∧
    claimSortRun [5, 3] 0 1 = [3, 5] ∧
    ([5, 3] : List Int) ≠ [3, 5] := by
  refine ⟨?_, ?_, by decide⟩
  · rw [sortScanline, if_pos (by decide)]
    rw [sortScanGo_eq_some _ _ _ _ 0 (by simp [getFirstIdx, skipPred])]
    have he : getNextIdx (contPred ⟨0, 0, 0, 0⟩ SortMode.white) [5, 3] 0 = 1 := by
      simp [getNextIdx, getNextIdxGo, contPred]
    rw [he]
    simp [sortSegment]
  · rw [claimSortRun, if_pos (by decide)]
    decide

/-- C2 (amended).  For every detected run with start `s` and `xEnd`
value `e`, whenever `e - s` (the `sortingLength` the code computes)
exceeds 1, the engine gathers the packed colors at positions
`s..e-1` inclusive, sorts them ascending by raw integer value, and
writes them back in order over exactly those positions: everything
below `s` and from `e` on is untouched, and the written range holds an
ascending permutation of its previous content. -/
theorem C2_run_sort (line : List Int) (s e : Nat) (hse : s ≤ e)
    (hen : e ≤ line.length) (hlen2 : 1 < e - s) :
    (sortSegment line s e).length = line.length ∧
    (∀ i, i < s → (sortSegment line s e).getD i 0 = line.getD i 0) ∧
    (∀ i, e ≤ i → (sortSegment line s e).getD i 0 = line.getD i 0) ∧
    (((sortSegment line s e).drop s).take (e - s)).Perm
      ((line.drop s).take (e - s)) ∧
    List.Sorted (· ≤ ·) (((sortSegment line s e).drop s).take (e - s)) := by
  refine ⟨sortSegment_length line s e hse hen,
    fun i hi => sortSegment_getD_outside line s e i hse hen (Or.inl hi),
    fun i hi => sortSegment_getD_outside line s e i hse hen (Or.inr hi),
    sortSegment_slice_perm line s e hse hen, ?_⟩
  unfold sortSegment
  rw [if_pos hlen2]
  have hA : (line.take s).length = s := by
    rw [List.length_take]
    omega
  have hB : (sortInts ((line.drop s).take (e - s))).length = e - s := by
    rw [sortInts_length, List.length_take, List.length_drop]
    omega
  rw [List.append_assoc, List.drop_left' hA, List.take_left' hB]
  exact sortInts_sorted _

/-- Witness for C2 at a concrete run: scanline [9, 7, 8, 1], run
(0, 3): positions 0..2 become [7, 8, 9] and position 3 keeps 1. -/
theorem C2_run_sort_witness :
    ((0 : Nat) ≤ 3 ∧ (3 : Nat) ≤ 4 ∧ (1 : Nat) < 3 - 0) ∧
    ((sortSegment [9, 7, 8, 1] 0 3).length = 4 ∧
    (∀ i, i < 0 →
      (sortSegment [9, 7, 8, 1] 0 3).getD i 0 =
        [(9 : Int), 7, 8, 1].getD i 0) ∧
    (∀ i, 3 ≤ i →
      (sortSegment [9, 7, 8, 1] 0 3).getD i 0 =
        [(9 : Int), 7, 8, 1].getD i 0) ∧
    (((sortSegment [9, 7, 8, 1] 0 3).drop 0).take 3).Perm
      (([(9 : Int), 7, 8, 1].drop 0).take 3) ∧
    List.Sorted (· ≤ ·) (((sortSegment [9, 7, 8, 1] 0 3).drop 0).take 3)) :=
  ⟨⟨by decide, by decide, by decide⟩,
    C2_run_sort [9, 7, 8, 1] 0 3 (by decide) (by decide) (by decide)⟩

end ASDF

namespace ASDF

theorem convertToRGBA_length (rgbPixels : List Int) (orig : List Nat) :
    (convertToRGBA rgbPixels orig).length = orig.length := by
  unfold convertToRGBA
  rw [List.length_map, List.length_range]

theorem sortColumns_length (s : PixelSorter) (mode : SortMode)
    (rgb : List Int) (w h : Nat) :
    (sortColumns s mode rgb w h).length = rgb.length := by
  unfold sortColumns
  generalize List.range (w - 1) = L
  induction L generalizing rgb with
  | nil => rfl
  | cons c cs ih =>
    rw [List.foldl_cons, ih, sortColumnF_length]

theorem sortRows_length (s : PixelSorter) (mode : SortMode)
    (rgb : List Int) (w h : Nat) :
    (sortRows s mode rgb w h).length = rgb.length := by
  unfold sortRows
  generalize List.range (h - 1) = L
  induction L generalizing rgb with
  | nil => rfl
  | cons r rs ih =>
    rw [List.foldl_cons, ih, sortRowF_length]

/-- C3 counterexample: on the malformed buffer of width 1, height 1
and data length 3 (≠ 4·1·1), the engine raises nothing before
processing: the whole buffer is read and processed (the pure transform
`sortImage` is fully defined on it, with a 3-byte result), and the
error that is raised comes from the final ImageData construction
(pixelSort.js line 58) — an InvalidStateError (3 is not a nonzero
multiple of 4), not an InvalidArgument condition raised synchronously
before any pixel of the working buffer is touched. -/
theorem C3_counterexample :
    sortImageE defaultSorter { width := 1, height := 1, data := [1, 2, 3] }
        SortMode.white = Except.error "InvalidStateError" ∧
    (sortImage defaultSorter { width := 1, height := 1, data := [1, 2, 3] }
        SortMode.white).data.length = 3 ∧
    ("InvalidStateError" : String) ≠ "InvalidArgument" := by
  have hlen : (sortImage defaultSorter
      { width := 1, height := 1, data := [1, 2, 3] }
      SortMode.white).data.length = 3 := by
    show (convertToRGBA _ _).length = 3
    rw [convertToRGBA_length]
    rfl
  refine ⟨?_, hlen, by decide⟩
  simp only [sortImageE]
  rw [if_pos (by rw [hlen]; norm_num)]

/-- C3 (amended).  `sortImage` performs no upfront validation: every
buffer, malformed or not, is processed in full, and the only check sits
in the final output construction (pixelSort.js line 58).  For every
well-formed buffer (positive width and height, data length exactly
width·height·4) no error is raised and the fully processed buffer is
returned; for every malformed buffer the final ImageData construction
fails — after the processing, not before it — with an InvalidStateError
or an IndexSizeError. -/
theorem C3_validation_at_output (s : PixelSorter) (img : ImageData)
    (mode : SortMode) :
    (1 ≤ img.width → 1 ≤ img.height →
      img.data.length = 4 * (img.width * img.height) →
      sortImageE s img mode = Except.ok (sortImage s img mode)) ∧
    (¬(1 ≤ img.width ∧ 1 ≤ img.height ∧
        img.data.length = 4 * (img.width * img.height)) →
      ∃ e, sortImageE s img mode = Except.error e ∧
        (e = "InvalidStateError" ∨ e = "IndexSizeError")) := by
  have hlen : (sortImage s img mode).data.length = img.data.length := by
    show (convertToRGBA _ _).length = _
    rw [convertToRGBA_length]
  constructor
  · intro hw hh hdata
    have hwh : 1 ≤ img.width * img.height := Nat.mul_pos hw hh
    have hc1 : ¬((sortImage s img mode).data.length = 0 ∨
        (sortImage s img mode).data.length % 4 ≠ 0) := by
      rw [hlen, hdata]
      omega
    have h4 : (sortImage s img mode).data.length / 4 =
        img.width * img.height := by
      rw [hlen, hdata]
      omega
    have hc2 : ¬(((sortImage s img mode).data.length / 4) % img.width ≠ 0 ∨
        img.height ≠ ((sortImage s img mode).data.length / 4) /
          img.width) := by
      rw [h4]
      have hm : (img.width * img.height) % img.width = 0 :=
        Nat.mul_mod_right _ _
      have hd : img.width * img.height / img.width = img.height :=
        Nat.mul_div_cancel_left img.height hw
      rw [hm, hd]
      simp
    simp only [sortImageE]
    rw [if_neg hc1, if_neg hc2]
  · intro hmal
    simp only [sortImageE]
    by_cases hc1 : (sortImage s img mode).data.length = 0 ∨
        (sortImage s img mode).data.length % 4 ≠ 0
    · exact ⟨"InvalidStateError", by rw [if_pos hc1], Or.inl rfl⟩
    · have hc2 : ((sortImage s img mode).data.length / 4) % img.width ≠ 0 ∨
          img.height ≠ ((sortImage s img mode).data.length / 4) /
            img.width := by
        by_contra hcon
        push_neg at hcon
        obtain ⟨hm0, hhq⟩ := hcon
        push_neg at hc1
        obtain ⟨hne, hmod⟩ := hc1
        rw [hlen] at hne hmod hm0 hhq
        have hw : 1 ≤ img.width := by
          by_contra hw0
          have hweq : img.width = 0 := by omega
          rw [hweq, Nat.mod_zero] at hm0
          omega
        have hdm := Nat.div_add_mod (img.data.length / 4) img.width
        have hmul : img.width * (img.data.length / 4 / img.width) =
            img.data.length / 4 := by omega
        have hh1 : 1 ≤ img.data.length / 4 / img.width := by
          by_contra hh0
          have hz : img.data.length / 4 / img.width = 0 := by omega
          rw [hz, Nat.mul_zero] at hmul
          omega
        refine hmal ⟨hw, ?_, ?_⟩
        · rw [hhq]
          exact hh1
        · rw [hhq]
          omega
      exact ⟨"IndexSizeError", by rw [if_neg hc1, if_pos hc2], Or.inr rfl⟩

/-- Witness for C3 at a concrete well-formed buffer: the 1×1 image with
4 data bytes is processed and returned without error. -/
theorem C3_validation_at_output_witness :
    (1 ≤ 1 ∧
      ([9, 8, 7, 200] : List Nat).length = 4 * (1 * 1)) ∧
    sortImageE defaultSorter
        { width := 1, height := 1, data := [9, 8, 7, 200] }
        SortMode.white =
      Except.ok (sortImage defaultSorter
        { width := 1, height := 1, data := [9, 8, 7, 200] }
        SortMode.white) :=
  ⟨⟨by decide, by decide⟩,
    (C3_validation_at_output defaultSorter
        { width := 1, height := 1, data := [9, 8, 7, 200] }
        SortMode.white).1 (by decide) (by decide) (by decide)⟩

/-- C5.  For every input buffer, every mode and every threshold
configuration, the alpha byte of every output pixel equals the alpha
byte of the input pixel at the same position: `convertToRGBA` copies
byte `4*i + 3` from the original buffer, and the engine only ever
rewrites the packed RGB words. -/
theorem C5_alpha_preserved (s : PixelSorter) (img : ImageData)
    (mode : SortMode) (i : Nat) (hi : i < img.width * img.height) :
    (sortImage s img mode).data.getD (4 * i + 3) 0 =
      img.data.getD (4 * i + 3) 0 := by
  have hlen2 : (sortRows s mode (sortColumns s mode
      (convertToRGB img.data img.width img.height) img.width img.height)
      img.width img.height).length = img.width * img.height := by
    rw [sortRows_length, sortColumns_length, convertToRGB_length]
  show (convertToRGBA _ img.data).getD (4 * i + 3) 0 = _
  unfold convertToRGBA
  rw [getD_map_range]
  by_cases hj : 4 * i + 3 < img.data.length
  · rw [if_pos hj]
    have hq : (4 * i + 3) / 4 = i := by omega
    have hr : (4 * i + 3) % 4 = 3 := by omega
    rw [hq, hr, if_pos (by rw [hlen2]; omega)]
    norm_num
  · rw [if_neg hj]
    rw [List.getD_eq_getElem?_getD img.data, List.getElem?_eq_none (by omega)]
    rfl

/-- Witness for C5 on a concrete 1×1 image. -/
theorem C5_alpha_preserved_witness :
    (0 < 1 * 1) ∧
    (sortImage defaultSorter
        { width := 1, height := 1, data := [9, 8, 7, 200] }
        SortMode.white).data.getD (4 * 0 + 3) 0 =
      ([9, 8, 7, 200] : List Nat).getD (4 * 0 + 3) 0 :=
  ⟨by decide, C5_alpha_preserved defaultSorter _ SortMode.white 0 (by decide)⟩

/-- C6.  For every buffer with width ≥ 1 and height ≥ 1 and every mode,
`sortImage` terminates (all scan loops are well-founded recursions over
strictly increasing scan positions, so the definition is total) and
returns a buffer of the same dimensions and data length, including the
degenerate width = 1 and height = 1 cases. -/
theorem C6_terminates (s : PixelSorter) (img : ImageData) (mode : SortMode)
    (hw : 1 ≤ img.width) (hh : 1 ≤ img.height) :
    (sortImage s img mode).width = img.width ∧
    (sortImage s img mode).height = img.height ∧
    (sortImage s img mode).data.length = img.data.length := by
  refine ⟨rfl, rfl, ?_⟩
  show (convertToRGBA _ img.data).length = _
  exact convertToRGBA_length _ _

/-- Witness for C6 on a concrete degenerate 1×2 image. -/
theorem C6_terminates_witness :
    (1 ≤ 1 ∧ 1 ≤ 2) ∧
    ((sortImage defaultSorter
        { width := 1, height := 2,
          data := [1, 2, 3, 4, 5, 6, 7, 8] } SortMode.dark).width = 1 ∧
    (sortImage defaultSorter
        { width := 1, height := 2,
          data := [1, 2, 3, 4, 5, 6, 7, 8] } SortMode.dark).height = 2 ∧
    (sortImage defaultSorter
        { width := 1, height := 2,
          data := [1, 2, 3, 4, 5, 6, 7, 8] } SortMode.dark).data.length =
      ([1, 2, 3, 4, 5, 6, 7, 8] : List Nat).length) :=
  ⟨⟨by decide, by decide⟩,
    C6_terminates defaultSorter _ SortMode.dark (by decide) (by decide)⟩

end ASDF

namespace ASDF


/-- C4.  For every mode and threshold configuration: on any scanline,
the content of each detected run's written range is a permutation of
what was there before, every position outside all written ranges is
unchanged (no value crosses a run boundary), and `sortRow` /
`sortColumn` write nothing outside their own row / column (no value
moves between scanlines). -/
theorem C4_run_local_permutation (s : PixelSorter) (mode : SortMode) :
    (∀ line : List Int,
      (∀ p ∈ (sortScanline (skipPred s mode) (contPred s mode) line).2,
        (((sortScan (skipPred s mode) (contPred s mode) line).drop p.1).take
            (p.2 - p.1)).Perm ((line.drop p.1).take (p.2 - p.1))) ∧
      (∀ i, (∀ p ∈ (sortScanline (skipPred s mode) (contPred s mode) line).2,
          i < p.1 ∨ p.2 ≤ i) →
        (sortScan (skipPred s mode) (contPred s mode) line).getD i 0 =
          line.getD i 0)) ∧
    (∀ (pixels : List Int) (w row j : Nat),
      (j < row * w ∨ row * w + w ≤ j) →
      (sortRowF s mode pixels w row).getD j 0 = pixels.getD j 0) ∧
    (∀ (pixels : List Int) (w h col j : Nat), j % w ≠ col →
      (sortColumnF s mode pixels w h col).getD j 0 = pixels.getD j 0) := by
  refine ⟨?_, ?_, ?_⟩
  · intro line
    unfold sortScan sortScanline
    split
    case isTrue hn =>
      obtain ⟨hlen, hframe, hruns, hun⟩ :=
        sortScanGo_spec (skipPred s mode) (contPred s mode) line 0
      exact ⟨fun p hp => (hruns p hp).2.2.2.2.2.2,
        fun i hout => hun i (Nat.zero_le i) hout⟩
    case isFalse hn =>
      exact ⟨fun p hp => absurd hp (List.not_mem_nil p),
        fun i _ => rfl⟩
  · intro pixels w row j hj
    exact sortRowF_frame s mode pixels w row j hj
  · intro pixels w h col j hj
    exact sortColumnF_frame s mode pixels w h col j (Or.inl hj)

/-- Witness for C4: white mode, whiteValue 0, scanline [5, 3, 4]
gives the single run (0, 2); the written range [0, 2) of the output is
a permutation of the original content there. -/
theorem C4_run_local_permutation_witness :
    ((0, 2) ∈ (sortScanline (skipPred ⟨0, 0, 0, 0⟩ SortMode.white)
      (contPred ⟨0, 0, 0, 0⟩ SortMode.white) [5, 3, 4]).2) ∧
    (((sortScan (skipPred ⟨0, 0, 0, 0⟩ SortMode.white)
        (contPred ⟨0, 0, 0, 0⟩ SortMode.white) [5, 3, 4]).drop 0).take 2).Perm
      (([(5 : Int), 3, 4].drop 0).take 2) := by
  have hscan : sortScanline (skipPred ⟨0, 0, 0, 0⟩ SortMode.white)
      (contPred ⟨0, 0, 0, 0⟩ SortMode.white) [5, 3, 4] =
      ([3, 5, 4], [(0, 2)]) := by
    rw [sortScanline, if_pos (by decide)]
    rw [sortScanGo_eq_some _ _ _ _ 0 (by simp [getFirstIdx, skipPred])]
    have he : getNextIdx (contPred ⟨0, 0, 0, 0⟩ SortMode.white)
        [5, 3, 4] 0 = 2 := by
      simp [getNextIdx, getNextIdxGo, contPred]
    rw [he]
    have hseg : sortSegment [5, 3, 4] 0 2 = [3, 5, 4] := by
      rw [sortSegment, if_pos (by decide)]
      decide
    rw [hseg]
    simp
  have hmem : (0, 2) ∈ (sortScanline (skipPred ⟨0, 0, 0, 0⟩ SortMode.white)
      (contPred ⟨0, 0, 0, 0⟩ SortMode.white) [5, 3, 4]).2 := by
    rw [hscan]
    exact List.mem_singleton.mpr rfl
  exact ⟨hmem,
    ((C4_run_local_permutation ⟨0, 0, 0, 0⟩ SortMode.white).1
      [5, 3, 4]).1 (0, 2) hmem⟩

end ASDF

namespace ASDF

theorem unpackR_pack (r g b : Nat) (hr : r < 256) (hg : g < 256)
    (hb : b < 256) : unpackR (pack r g b) = r := by
  unfold unpackR pack
  omega

theorem unpackG_pack (r g b : Nat) (hr : r < 256) (hg : g < 256)
    (hb : b < 256) : unpackG (pack r g b) = g := by
  unfold unpackG pack
  omega

theorem unpackB_pack (r g b : Nat) (hr : r < 256) (hg : g < 256)
    (hb : b < 256) : unpackB (pack r g b) = b := by
  unfold unpackB pack
  omega

/-- Sorting a list whose elements are all equal leaves it unchanged. -/
theorem sortInts_const (l : List Int) (c : Int) (hc : ∀ v ∈ l, v = c) :
    sortInts l = l := by
  have h1 : l = List.replicate l.length c :=
    List.eq_replicate_iff.mpr ⟨rfl, hc⟩
  have h2 : sortInts l = List.replicate l.length c := by
    apply List.eq_replicate_iff.mpr
    refine ⟨by rw [sortInts_length], ?_⟩
    intro v hv
    exact hc v ((sortInts_perm l).mem_iff.mp hv)
  rw [h2, ← h1]

theorem sortSegment_const (line : List Int) (s e : Nat) (c : Int)
    (hc : ∀ v ∈ line, v = c) (hse : s ≤ e) (hen : e ≤ line.length) :
    sortSegment line s e = line := by
  unfold sortSegment
  split
  case isFalse => rfl
  case isTrue hgt =>
  have hmid : sortInts ((line.drop s).take (e - s)) =
      (line.drop s).take (e - s) := by
    apply sortInts_const _ c
    intro v hv
    exact hc v (List.mem_of_mem_drop (List.mem_of_mem_take hv))
  rw [hmid]
  have hdd : line.drop e = (line.drop s).drop (e - s) := by
    rw [List.drop_drop]
    congr 1
    omega
  rw [hdd, List.append_assoc, List.take_append_drop, List.take_append_drop]

theorem sortScanGo_const (skip cont : Int → Bool) (line : List Int)
    (x : Nat) (c : Int) (hc : ∀ v ∈ line, v = c) :
    (sortScanGo skip cont line x).1 = line := by
  induction line, x using sortScanGo.induct skip cont with
  | case1 line x hF =>
    rw [sortScanGo_eq_none skip cont line x hF]
  | case2 line x s hF e line' hlt ih =>
    obtain ⟨hxs, hsn, hsk, hmin⟩ := getFirstIdx_some_spec skip line x s hF
    have heq : e = getNextIdxGo cont line (s + 1) := rfl
    obtain ⟨⟨hb1, hb2⟩, hcall, hcstop⟩ :=
      getNextIdxGo_spec cont line (s + 1) (by omega) (by omega)
    have hconst : line' = line :=
      sortSegment_const line s e c hc (by omega) (by omega)
    have hout : sortScanGo skip cont line x =
        ((sortScanGo skip cont line' (e + 1)).1,
          (s, e) :: (sortScanGo skip cont line' (e + 1)).2) := by
      rw [sortScanGo_eq_some skip cont line x s hF, if_pos hlt]
    rw [hout]
    show (sortScanGo skip cont line' (e + 1)).1 = line
    rw [show (sortScanGo skip cont line' (e + 1)).1 = line' from
      ih (hconst ▸ hc)]
    exact hconst
  | case3 line x s hF e hlt =>
    obtain ⟨hxs, hsn, hsk, hmin⟩ := getFirstIdx_some_spec skip line x s hF
    have heq : e = getNextIdxGo cont line (s + 1) := rfl
    obtain ⟨⟨hb1, hb2⟩, hcall, hcstop⟩ :=
      getNextIdxGo_spec cont line (s + 1) (by omega) (by omega)
    have hout : sortScanGo skip cont line x =
        (sortSegment line s e, [(s, e)]) := by
      rw [sortScanGo_eq_some skip cont line x s hF, if_neg hlt]
    rw [hout]
    exact sortSegment_const line s e c hc (by omega) (by omega)

theorem sortScan_const (skip cont : Int → Bool) (line : List Int)
    (c : Int) (hc : ∀ v ∈ line, v = c) :
    sortScan skip cont line = line := by
  unfold sortScan sortScanline
  split
  · exact sortScanGo_const skip cont line 0 c hc
  · rfl

/-- Writing a row's own content back is the identity. -/
theorem setRow_getRow_self (pixels : List Int) (w row : Nat) :
    setRow pixels w row (getRow pixels w row) = pixels := by
  apply List.ext_getElem
  · rw [setRow_length]
  · intro j h1 h2
    rw [← List.getD_eq_getElem (setRow pixels w row (getRow pixels w row)) 0 h1,
      ← List.getD_eq_getElem pixels 0 h2]
    rw [setRow_getD]
    split
    case isFalse => rfl
    case isTrue hcond =>
    rw [getRow_getD _ _ _ _ (by omega)]
    congr 1
    omega

/-- Writing a column's own content back is the identity. -/
theorem setCol_getCol_self (pixels : List Int) (w h col : Nat)
    (hcol : col < w) :
    setCol pixels w h col (getCol pixels w h col) = pixels := by
  apply List.ext_getElem
  · rw [setCol_length]
  · intro j h1 h2
    rw [← List.getD_eq_getElem (setCol pixels w h col (getCol pixels w h col)) 0 h1,
      ← List.getD_eq_getElem pixels 0 h2]
    rw [setCol_getD]
    split
    case isFalse => rfl
    case isTrue hcond =>
    rw [getCol_getD _ _ _ _ _ hcond.2.2]
    congr 1
    have hdm := Nat.div_add_mod j w
    have hcomm : (j / w) * w = w * (j / w) := Nat.mul_comm _ _
    omega
end ASDF

namespace ASDF


/-- A solid-colour image: every pixel has the same R, G, B, A bytes. -/
def solidImage (w h r g b a : Nat) : ImageData :=
  { width := w, height := h,
    data := (List.range (4 * (w * h))).map fun j =>
      if j % 4 = 0 then r
      else if j % 4 = 1 then g
      else if j % 4 = 2 then b
      else a }

theorem solidImage_data_getD (w h r g b a j : Nat) :
    (solidImage w h r g b a).data.getD j 0 =
      if j < 4 * (w * h) then
        (if j % 4 = 0 then r
         else if j % 4 = 1 then g
         else if j % 4 = 2 then b
         else a)
      else 0 := by
  unfold solidImage
  exact getD_map_range _ _ _ _

theorem solidImage_data_length (w h r g b a : Nat) :
    (solidImage w h r g b a).data.length = 4 * (w * h) := by
  unfold solidImage
  rw [List.length_map, List.length_range]

theorem convertToRGB_solid (w h r g b a : Nat) :
    convertToRGB (solidImage w h r g b a).data w h =
      List.replicate (w * h) (pack r g b) := by
  unfold convertToRGB
  apply List.eq_replicate_iff.mpr
  refine ⟨by rw [List.length_map, List.length_range], ?_⟩
  intro v hv
  rw [List.mem_map] at hv
  obtain ⟨i, hi, hv⟩ := hv
  rw [List.mem_range] at hi
  rw [← hv]
  have h0 : (solidImage w h r g b a).data.getD (4 * i) 0 = r := by
    rw [solidImage_data_getD, if_pos (by omega), if_pos (by omega)]
  have h1 : (solidImage w h r g b a).data.getD (4 * i + 1) 0 = g := by
    rw [solidImage_data_getD, if_pos (by omega), if_neg (by omega),
      if_pos (by omega)]
  have h2 : (solidImage w h r g b a).data.getD (4 * i + 2) 0 = b := by
    rw [solidImage_data_getD, if_pos (by omega), if_neg (by omega),
      if_neg (by omega), if_pos (by omega)]
  rw [h0, h1, h2]

theorem getD_replicate_of_lt (c : Int) (n m : Nat) (h : m < n) :
    (List.replicate n c).getD m 0 = c := by
  rw [List.getD_eq_getElem _ _ (by rw [List.length_replicate]; exact h)]
  exact List.getElem_replicate _ _

/-- Every element of a scanline of a constant full-size buffer is the
constant. -/
theorem getCol_const (pixels : List Int) (w h col : Nat) (c : Int)
    (hc : ∀ v ∈ pixels, v = c) (hlen : pixels.length = w * h)
    (hcol : col < w) : ∀ v ∈ getCol pixels w h col, v = c := by
  intro v hv
  unfold getCol at hv
  rw [List.mem_map] at hv
  obtain ⟨y, hy, hv⟩ := hv
  rw [List.mem_range] at hy
  have hidx : col + y * w < pixels.length := by
    rw [hlen]
    nlinarith [Nat.succ_le_of_lt hy]
  rw [← hv, List.getD_eq_getElem _ _ hidx]
  exact hc _ (List.getElem_mem _)

theorem getRow_const (pixels : List Int) (w h row : Nat) (c : Int)
    (hc : ∀ v ∈ pixels, v = c) (hlen : pixels.length = w * h)
    (hrow : row < h) : ∀ v ∈ getRow pixels w row, v = c := by
  intro v hv
  unfold getRow at hv
  rw [List.mem_map] at hv
  obtain ⟨x, hx, hv⟩ := hv
  rw [List.mem_range] at hx
  have hidx : x + row * w < pixels.length := by
    rw [hlen]
    nlinarith [Nat.succ_le_of_lt hrow]
  rw [← hv, List.getD_eq_getElem _ _ hidx]
  exact hc _ (List.getElem_mem _)

theorem foldCols_const (s : PixelSorter) (mode : SortMode) (w h : Nat)
    (c : Int) : ∀ (L : List Nat) (pixels : List Int),
    (∀ col ∈ L, col < w) → (∀ v ∈ pixels, v = c) →
    pixels.length = w * h →
    L.foldl (fun px col => sortColumnF s mode px w h col) pixels = pixels := by
  intro L
  induction L with
  | nil => intro pixels _ _ _; rfl
  | cons col cs ih =>
    intro pixels hcols hc hlen
    have hcol : col < w := hcols col (List.mem_cons_self _ _)
    have hstep : sortColumnF s mode pixels w h col = pixels := by
      unfold sortColumnF
      rw [sortScan_const _ _ _ c (getCol_const pixels w h col c hc hlen hcol)]
      exact setCol_getCol_self pixels w h col hcol
    rw [List.foldl_cons, hstep]
    exact ih pixels (fun c' h' => hcols c' (List.mem_cons_of_mem _ h')) hc hlen

theorem foldRows_const (s : PixelSorter) (mode : SortMode) (w h : Nat)
    (c : Int) : ∀ (L : List Nat) (pixels : List Int),
    (∀ row ∈ L, row < h) → (∀ v ∈ pixels, v = c) →
    pixels.length = w * h →
    L.foldl (fun px row => sortRowF s mode px w row) pixels = pixels := by
  intro L
  induction L with
  | nil => intro pixels _ _ _; rfl
  | cons row rs ih =>
    intro pixels hrows hc hlen
    have hrow : row < h := hrows row (List.mem_cons_self _ _)
    have hstep : sortRowF s mode pixels w row = pixels := by
      unfold sortRowF
      rw [sortScan_const _ _ _ c (getRow_const pixels w h row c hc hlen hrow)]
      exact setRow_getRow_self pixels w row
    rw [List.foldl_cons, hstep]
    exact ih pixels (fun r' h' => hrows r' (List.mem_cons_of_mem _ h')) hc hlen

/-- C7.  A solid-colour image (every pixel identical) sorted in any
mode with any thresholds is returned unchanged. -/
theorem C7_solid_noop (s : PixelSorter) (mode : SortMode)
    (w h r g b a : Nat) (hr : r < 256) (hg : g < 256) (hb : b < 256) :
    sortImage s (solidImage w h r g b a) mode = solidImage w h r g b a := by
  have hrgb := convertToRGB_solid w h r g b a
  have hrep : ∀ v ∈ List.replicate (w * h) (pack r g b), v = pack r g b :=
    fun v hv => (List.mem_replicate.mp hv).2
  have hreplen : (List.replicate (w * h) (pack r g b)).length = w * h :=
    List.length_replicate _ _
  have hcols : sortColumns s mode
      (convertToRGB (solidImage w h r g b a).data w h) w h =
      List.replicate (w * h) (pack r g b) := by
    rw [hrgb]
    unfold sortColumns
    exact foldCols_const s mode w h (pack r g b) _ _
      (fun col hcol => by rw [List.mem_range] at hcol; omega) hrep hreplen
  have hrows : sortRows s mode (List.replicate (w * h) (pack r g b)) w h =
      List.replicate (w * h) (pack r g b) := by
    unfold sortRows
    exact foldRows_const s mode w h (pack r g b) _ _
      (fun row hrow => by rw [List.mem_range] at hrow; omega) hrep hreplen
  show ImageData.mk _ _ _ = _
  have hW : (solidImage w h r g b a).width = w := rfl
  have hH : (solidImage w h r g b a).height = h := rfl
  rw [hW, hH, hcols, hrows]
  have hdata : convertToRGBA (List.replicate (w * h) (pack r g b))
      (solidImage w h r g b a).data = (solidImage w h r g b a).data := by
    apply List.ext_getElem
    · rw [convertToRGBA_length]
    · intro j h1 h2
      rw [← List.getD_eq_getElem (convertToRGBA _ _) 0 h1,
        ← List.getD_eq_getElem _ 0 h2]
      have hj : j < 4 * (w * h) := by
        rw [solidImage_data_length] at h2
        exact h2
      unfold convertToRGBA
      rw [getD_map_range, if_pos (by rw [solidImage_data_length]; omega)]
      rw [hreplen]
      rw [if_pos (by omega)]
      rw [getD_replicate_of_lt _ _ _ (by omega)]
      rw [solidImage_data_getD, if_pos hj]
      by_cases h4 : j % 4 = 0
      · rw [if_pos h4, if_pos h4, unpackR_pack r g b hr hg hb]
      · rw [if_neg h4, if_neg h4]
        by_cases h5 : j % 4 = 1
        · rw [if_pos h5, if_pos h5, unpackG_pack r g b hr hg hb]
        · rw [if_neg h5, if_neg h5]
          by_cases h6 : j % 4 = 2
          · rw [if_pos h6, if_pos h6, unpackB_pack r g b hr hg hb]
          · rw [if_neg h6, if_neg h6]
  rw [hdata]
  rfl

/-- Witness for C7 on a concrete 2×2 solid image. -/
theorem C7_solid_noop_witness :
    ((100 : Nat) < 256 ∧ (150 : Nat) < 256 ∧ (200 : Nat) < 256) ∧
    sortImage defaultSorter (solidImage 2 2 100 150 200 255)
        SortMode.black = solidImage 2 2 100 150 200 255 :=
  ⟨⟨by decide, by decide, by decide⟩,
    C7_solid_noop defaultSorter SortMode.black 2 2 100 150 200 255
      (by decide) (by decide) (by decide)⟩

end ASDF

namespace ASDF

theorem getD_lt_256 (data : List Nat) (hbytes : ∀ b ∈ data, b < 256)
    (m : Nat) : data.getD m 0 < 256 := by
  by_cases h : m < data.length
  · rw [List.getD_eq_getElem _ _ h]
    exact hbytes _ (List.getElem_mem _)
  · rw [List.getD_eq_getElem?_getD, List.getElem?_eq_none (by omega)]
    decide

theorem convertToRGB_getD (pixels : List Nat) (w h i : Nat)
    (hi : i < w * h) :
    (convertToRGB pixels w h).getD i 0 =
      pack (pixels.getD (4 * i) 0) (pixels.getD (4 * i + 1) 0)
        (pixels.getD (4 * i + 2) 0) := by
  unfold convertToRGB
  rw [getD_map_range, if_pos hi]

/-- C10.  The RGB bytes of every pixel in the last column
(`x = width - 1`) and in the last row (`y = height - 1`) are identical
in input and output: the column loop stops before the last column, the
row loop stops before the last row, and each run sort writes only
scanline indices `start..end-1 ≤ length-2`, so border pixels are never
written. -/
theorem C10_border_preserved (s : PixelSorter) (img : ImageData)
    (mode : SortMode) (hbytes : ∀ b ∈ img.data, b < 256)
    (x y : Nat) (hx : x < img.width) (hy : y < img.height)
    (hborder : x = img.width - 1 ∨ y = img.height - 1)
    (k : Nat) (hk : k < 3) :
    (sortImage s img mode).data.getD (4 * (x + y * img.width) + k) 0 =
      img.data.getD (4 * (x + y * img.width) + k) 0 := by
  set w := img.width with hwdef
  set h := img.height with hhdef
  set rgb := convertToRGB img.data w h with hrgbdef
  have hrgblen : rgb.length = w * h := convertToRGB_length _ _ _
  obtain ⟨hc1, hc2, hc3, _⟩ := foldCols_spec s mode w h (List.range (w - 1))
    rgb (fun c hc => by rw [List.mem_range] at hc; omega)
    (List.nodup_range _) hrgblen
  set G1 := (List.range (w - 1)).foldl
    (fun px col => sortColumnF s mode px w h col) rgb with hG1def
  have hG1len : G1.length = w * h := by rw [hc1, hrgblen]
  obtain ⟨hr1, hr2, hr3, _⟩ := foldRows_spec s mode w h (List.range (h - 1))
    G1 (fun r hr => by rw [List.mem_range] at hr; omega)
    (List.nodup_range _) hG1len
  set G2 := (List.range (h - 1)).foldl
    (fun px row => sortRowF s mode px w row) G1 with hG2def
  have hcols_eq : sortColumns s mode rgb w h = G1 := rfl
  have hrows_eq : sortRows s mode G1 w h = G2 := rfl
  -- the border pixel's packed word is untouched by both phases
  have hA : G2.getD (x + y * w) 0 = rgb.getD (x + y * w) 0 := by
    rcases hborder with hb | hb
    · have s1 : G1.getD (x + y * w) 0 = rgb.getD (x + y * w) 0 :=
        hc2 x y hx (by rw [List.mem_range]; omega)
      have s2 : G2.getD (x + y * w) 0 = G1.getD (x + y * w) 0 := by
        have := hr3 (by omega) y
        rw [← hb] at this
        exact this
      rw [s2, s1]
    · have s1 : G1.getD (x + y * w) 0 = rgb.getD (x + y * w) 0 := by
        have := hc3 (by omega) x hx
        rw [← hb] at this
        exact this
      have s2 : G2.getD (x + y * w) 0 = G1.getD (x + y * w) 0 :=
        hr2 x y hx (by rw [List.mem_range]; omega)
      rw [s2, s1]
  -- unfold the output byte
  have hj : x + y * w < w * h := by
    nlinarith [Nat.succ_le_of_lt hx, Nat.succ_le_of_lt hy]
  have hout : (sortImage s img mode).data = convertToRGBA G2 img.data := by
    show convertToRGBA _ _ = _
    rw [hcols_eq, hrows_eq]
  rw [hout]
  unfold convertToRGBA
  rw [getD_map_range]
  by_cases hjl : 4 * (x + y * w) + k < img.data.length
  · rw [if_pos hjl]
    have hq : (4 * (x + y * w) + k) / 4 = x + y * w := by omega
    have hG2len : G2.length = w * h := by rw [hr1, hG1len]
    rw [hq, if_pos (by rw [hG2len]; omega)]
    have hG2 : G2.getD (x + y * w) 0 =
        pack (img.data.getD (4 * (x + y * w)) 0)
          (img.data.getD (4 * (x + y * w) + 1) 0)
          (img.data.getD (4 * (x + y * w) + 2) 0) := by
      rw [hA, hrgbdef, convertToRGB_getD _ _ _ _ hj]
    interval_cases k
    · rw [if_pos (by omega), hG2,
        unpackR_pack _ _ _ (getD_lt_256 _ hbytes _) (getD_lt_256 _ hbytes _)
          (getD_lt_256 _ hbytes _)]
      congr 1
    · rw [if_neg (by omega), if_pos (by omega), hG2,
        unpackG_pack _ _ _ (getD_lt_256 _ hbytes _) (getD_lt_256 _ hbytes _)
          (getD_lt_256 _ hbytes _)]
    · rw [if_neg (by omega), if_neg (by omega), if_pos (by omega), hG2,
        unpackB_pack _ _ _ (getD_lt_256 _ hbytes _) (getD_lt_256 _ hbytes _)
          (getD_lt_256 _ hbytes _)]
  · rw [if_neg hjl]
    rw [List.getD_eq_getElem?_getD img.data, List.getElem?_eq_none (by omega)]
    rfl

/-- Witness for C10 on a concrete 2×2 image: the pixel at the last
column (x = 1, y = 0) keeps its red byte. -/
theorem C10_border_preserved_witness :
    (∀ b ∈ ([10, 20, 30, 40, 50, 60, 70, 80,
             90, 100, 110, 120, 130, 140, 150, 160] : List Nat), b < 256) ∧
    (sortImage defaultSorter
        { width := 2, height := 2,
          data := [10, 20, 30, 40, 50, 60, 70, 80,
                   90, 100, 110, 120, 130, 140, 150, 160] }
        SortMode.bright).data.getD (4 * (1 + 0 * 2) + 0) 0 =
      ([10, 20, 30, 40, 50, 60, 70, 80,
        90, 100, 110, 120, 130, 140, 150, 160] : List Nat).getD
        (4 * (1 + 0 * 2) + 0) 0 :=
  ⟨by decide,
    C10_border_preserved defaultSorter _ SortMode.bright (by decide)
      1 0 (by decide) (by decide) (Or.inl (by decide)) 0 (by decide)⟩

end ASDF

namespace ASDF

theorem ratDiv50_mono (a b w : Nat) (hab : a ≤ b) :
    ((a : Rat) / w) * 50 ≤ ((b : Rat) / w) * 50 := by
  rcases Nat.eq_zero_or_pos w with hw | hw
  · subst hw
    norm_num
  · have hw' : (0 : Rat) < w := by exact_mod_cast hw
    have h1 : (a : Rat) ≤ b := by exact_mod_cast hab
    have h2 : (a : Rat) / w ≤ (b : Rat) / w := by gcongr
    nlinarith

theorem ratDiv50_le_50 (c w : Nat) (hc : c ≤ w) :
    ((c : Rat) / w) * 50 ≤ 50 := by
  rcases Nat.eq_zero_or_pos w with hw | hw
  · subst hw
    norm_num
  · have hw' : (0 : Rat) < w := by exact_mod_cast hw
    have h1 : (c : Rat) / w ≤ 1 := by
      rw [div_le_one hw']
      exact_mod_cast hc
    nlinarith

theorem ratDiv50_nonneg (c w : Nat) : (0 : Rat) ≤ ((c : Rat) / w) * 50 := by
  positivity

theorem length_filterMap_ite {α β : Type} (p : α → Prop) [DecidablePred p]
    (g : α → β) (l : List α) :
    (l.filterMap fun a => if p a then some (g a) else none).length =
      l.countP (fun a => decide (p a)) := by
  induction l with
  | nil => rfl
  | cons a l ih =>
    rw [List.filterMap_cons, List.countP_cons]
    by_cases hp : p a
    · rw [if_pos hp, List.length_cons, ih]
      simp [hp]
    · rw [if_neg hp, ih]
      simp [hp]

theorem countP_mod10_range (n : Nat) :
    (List.range n).countP (fun c => decide (c % 10 = 0)) = (n + 9) / 10 := by
  induction n with
  | zero => rfl
  | succ n ih =>
    rw [List.range_succ, List.countP_append, ih]
    have : (List.countP (fun c => decide (c % 10 = 0)) [n]) =
        if n % 10 = 0 then 1 else 0 := by
      rw [List.countP_cons]
      by_cases hn : n % 10 = 0 <;> simp [hn]
    rw [this]
    by_cases hn : n % 10 = 0
    · rw [if_pos hn]
      omega
    · rw [if_neg hn]
      omega

end ASDF

namespace ASDF

/-- C9.  When a progress callback is supplied, the sequence of reported
(percentage, label) calls is monotonically non-decreasing in
percentage, every percentage lies in [0, 100], every call carries a
nonempty phase label, the in-loop reports fire exactly at scanlines
divisible by 10 (so the total number of calls is the three phase
markers plus one per started block of 10 scanlines), and the final call
is exactly (100, "Complete!"). -/
theorem C9_progress_calls (w h : Nat) :
    List.Pairwise (fun a b => a.1 ≤ b.1) (progressCalls w h) ∧
    (∀ p ∈ progressCalls w h, 0 ≤ p.1 ∧ p.1 ≤ 100 ∧ p.2 ≠ "") ∧
    (progressCalls w h).getLast? = some (100, "Complete!") ∧
    (progressCalls w h).length =
      3 + (w - 1 + 9) / 10 + (h - 1 + 9) / 10 := by
  set CL := (List.range (w - 1)).filterMap fun (column : Nat) =>
    if column % 10 = 0 then
      some (((column : Rat) / (w : Rat)) * 50, "Sorting columns...")
    else none with hCL
  set RL := (List.range (h - 1)).filterMap fun (row : Nat) =>
    if row % 10 = 0 then
      some (50 + ((row : Rat) / (h : Rat)) * 50, "Sorting rows...")
    else none with hRL
  have hCLmem : ∀ p ∈ CL, ∃ c, c < w - 1 ∧ c % 10 = 0 ∧
      p = (((c : Rat) / (w : Rat)) * 50, "Sorting columns...") := by
    intro p hp
    rw [hCL, List.mem_filterMap] at hp
    obtain ⟨c, hc, hfc⟩ := hp
    rw [List.mem_range] at hc
    by_cases h10 : c % 10 = 0
    · rw [if_pos h10] at hfc
      cases hfc
      exact ⟨c, hc, h10, rfl⟩
    · rw [if_neg h10] at hfc
      cases hfc
  have hRLmem : ∀ p ∈ RL, ∃ r, r < h - 1 ∧ r % 10 = 0 ∧
      p = (50 + ((r : Rat) / (h : Rat)) * 50, "Sorting rows...") := by
    intro p hp
    rw [hRL, List.mem_filterMap] at hp
    obtain ⟨r, hr, hfr⟩ := hp
    rw [List.mem_range] at hr
    by_cases h10 : r % 10 = 0
    · rw [if_pos h10] at hfr
      cases hfr
      exact ⟨r, hr, h10, rfl⟩
    · rw [if_neg h10] at hfr
      cases hfr
  have hCLbnd : ∀ p ∈ CL, 0 ≤ p.1 ∧ p.1 ≤ 50 := by
    intro p hp
    obtain ⟨c, hc, _, hpe⟩ := hCLmem p hp
    subst hpe
    exact ⟨ratDiv50_nonneg c w, ratDiv50_le_50 c w (by omega)⟩
  have hRLbnd : ∀ p ∈ RL, 50 ≤ p.1 ∧ p.1 ≤ 100 := by
    intro p hp
    obtain ⟨r, hr, _, hpe⟩ := hRLmem p hp
    subst hpe
    constructor
    · have := ratDiv50_nonneg r h
      simp only
      linarith
    · have := ratDiv50_le_50 r h (by omega)
      simp only
      linarith
  have hstruct : progressCalls w h =
      (0, "Sorting columns...") ::
        (CL ++ (50, "Sorting rows...") :: (RL ++ [(100, "Complete!")])) := by
    rw [progressCalls]
  refine ⟨?_, ?_, ?_, ?_⟩
  · -- monotone
    rw [hstruct]
    rw [List.pairwise_cons]
    constructor
    · intro p hp
      rcases List.mem_append.mp hp with hp | hp
      · exact (hCLbnd p hp).1
      · rcases List.mem_cons.mp hp with hp | hp
        · rw [hp]
          norm_num
        · rcases List.mem_append.mp hp with hp | hp
          · have := (hRLbnd p hp).1
            simp only
            linarith
          · rw [List.mem_singleton.mp hp]
            norm_num
    rw [List.pairwise_append]
    refine ⟨?_, ?_, ?_⟩
    · -- within CL
      rw [hCL]
      refine List.Pairwise.filterMap _ ?_ (List.pairwise_lt_range _)
      intro a a' haa b hb b' hb'
      by_cases h10 : a % 10 = 0
      · rw [if_pos h10, Option.mem_def, Option.some.injEq] at hb
        by_cases h10' : a' % 10 = 0
        · rw [if_pos h10', Option.mem_def, Option.some.injEq] at hb'
          rw [← hb, ← hb']
          exact ratDiv50_mono a a' w (by omega)
        · rw [if_neg h10'] at hb'
          cases hb'
      · rw [if_neg h10] at hb
        cases hb
    · -- (50,..) :: RL ++ [(100,..)]
      rw [List.pairwise_cons]
      constructor
      · intro p hp
        rcases List.mem_append.mp hp with hp | hp
        · exact (hRLbnd p hp).1
        · rw [List.mem_singleton.mp hp]
          norm_num
      rw [List.pairwise_append]
      refine ⟨?_, List.pairwise_singleton _ _, ?_⟩
      · -- within RL
        rw [hRL]
        refine List.Pairwise.filterMap _ ?_ (List.pairwise_lt_range _)
        intro a a' haa b hb b' hb'
        by_cases h10 : a % 10 = 0
        · rw [if_pos h10, Option.mem_def, Option.some.injEq] at hb
          by_cases h10' : a' % 10 = 0
          · rw [if_pos h10', Option.mem_def, Option.some.injEq] at hb'
            rw [← hb, ← hb']
            have := ratDiv50_mono a a' h (by omega)
            simp only
            linarith
          · rw [if_neg h10'] at hb'
            cases hb'
        · rw [if_neg h10] at hb
          cases hb
      · -- RL entries ≤ 100
        intro a ha b hb
        rw [List.mem_singleton.mp hb]
        exact (hRLbnd a ha).2
    · -- CL entries ≤ everything after
      intro a ha b hb
      have ha50 := (hCLbnd a ha).2
      rcases List.mem_cons.mp hb with hb | hb
      · rw [hb]
        exact ha50
      · rcases List.mem_append.mp hb with hb | hb
        · exact ha50.trans (hRLbnd b hb).1
        · rw [List.mem_singleton.mp hb]
          exact ha50.trans (by norm_num)
  · -- bounds and labels
    intro p hp
    rw [hstruct] at hp
    rcases List.mem_cons.mp hp with hp | hp
    · rw [hp]
      refine ⟨le_refl _, by norm_num, by decide⟩
    rcases List.mem_append.mp hp with hp | hp
    · obtain ⟨hb1, hb2⟩ := hCLbnd p hp
      obtain ⟨c, _, _, hpe⟩ := hCLmem p hp
      refine ⟨hb1, hb2.trans (by norm_num), ?_⟩
      rw [hpe]
      show ("Sorting columns..." : String) ≠ ""
      decide
    rcases List.mem_cons.mp hp with hp | hp
    · rw [hp]
      refine ⟨by norm_num, by norm_num, by decide⟩
    rcases List.mem_append.mp hp with hp | hp
    · obtain ⟨hb1, hb2⟩ := hRLbnd p hp
      obtain ⟨r, _, _, hpe⟩ := hRLmem p hp
      refine ⟨(by norm_num : (0 : Rat) ≤ 50).trans hb1, hb2, ?_⟩
      rw [hpe]
      show ("Sorting rows..." : String) ≠ ""
      decide
    · rw [List.mem_singleton.mp hp]
      refine ⟨by norm_num, le_refl _, by decide⟩
  · -- last call
    have hstruct2 : progressCalls w h =
        ((0, "Sorting columns...") ::
          (CL ++ (50, "Sorting rows...") :: RL)) ++ [(100, "Complete!")] := by
      rw [hstruct]
      simp [List.append_assoc]
    rw [hstruct2, List.getLast?_concat]
  · -- length
    rw [hstruct]
    rw [List.length_cons, List.length_append, List.length_cons,
      List.length_append, List.length_singleton]
    rw [hCL, hRL, length_filterMap_ite, length_filterMap_ite,
      countP_mod10_range, countP_mod10_range]
    omega

end ASDF

namespace ASDF

/-- Witness for C9 at concrete dimensions 25×15: the final reported
call is exactly (100, "Complete!"). -/
theorem C9_progress_calls_witness :
    (progressCalls 25 15).getLast? = some (100, "Complete!") :=
  (C9_progress_calls 25 15).2.2.1

end ASDF
